import Mathlib

/-!
# Verification of the YCS repository specification

Shallow embedding of the two Python applications of the repository:

* `src/MoneyQuest/app.py` — a personal-finance month simulator
  (`compute_net_pay`, `apply_budget`, `update_credit_score`, `close_month`,
  `export_save` / `import_save`);
* `src/app.py` — a daily finance quiz
  (`clean_text`, the play-session scoring state machine,
  `update_streak_with_freeze`, `SaveState.to_json` / `from_json`).

Python numbers are modelled by `ℤ` and `ℚ` (the float computations of the
source stay far from representation boundaries at every comparison used
below, so exact rational arithmetic decides them the same way); fields of
parsed JSON documents are modelled by `Option`; Python dicts by association
lists.  All definitions are executable.
-/

namespace YCS

/-! ## Rounding helpers

Python's `round` rounds half to even ("banker's rounding"); `round(x, 2)`
rounds to two decimal places.  All concrete values appearing in theorems
below are exactly representable, so the rational model agrees with the
float computation of the source. -/

/-- Python `round(q)`: nearest integer, ties to the even integer. -/
def pyRound (q : ℚ) : ℤ :=
  let f : ℤ := ⌊q⌋
  let r : ℚ := q - f
  if r < 1/2 then f
  else if 1/2 < r then f + 1
  else if f % 2 = 0 then f else f + 1

/-- Python `round(q, 2)`: rounding to two decimal places. -/
def round2 (q : ℚ) : ℚ := (pyRound (100 * q) : ℚ) / 100

theorem pyRound_sub_le (q : ℚ) : |(pyRound q : ℚ) - q| ≤ 1/2 := by
  have hf : (⌊q⌋ : ℚ) ≤ q := Int.floor_le q
  have hc : q < ⌊q⌋ + 1 := Int.lt_floor_add_one q
  unfold pyRound
  by_cases h1 : q - ⌊q⌋ < 1/2
  · simp only [h1, if_true]
    rw [abs_sub_comm, abs_of_nonneg (by linarith)]
    linarith
  · simp only [h1, if_false]
    by_cases h2 : 1/2 < q - ⌊q⌋
    · simp only [h2, if_true]
      push_cast
      rw [abs_of_nonneg (by linarith)]
      linarith
    · have : q - ⌊q⌋ = 1/2 := le_antisymm (not_lt.mp h2) (not_lt.mp h1)
      simp only [h2, if_false]
      by_cases h3 : (⌊q⌋ : ℤ) % 2 = 0 <;> simp only [h3, if_true, if_false] <;>
        push_cast <;> rw [abs_le] <;> constructor <;> linarith

theorem pyRound_nonneg {q : ℚ} (h : 0 ≤ q) : 0 ≤ pyRound q := by
  have hf : (0 : ℤ) ≤ ⌊q⌋ := Int.floor_nonneg.mpr h
  unfold pyRound
  by_cases h1 : q - ⌊q⌋ < 1/2
  · simp only [h1, if_true]; exact hf
  · by_cases h2 : (1:ℚ)/2 < q - ⌊q⌋
    · simp only [h1, h2, if_true, if_false]; omega
    · by_cases h3 : (⌊q⌋ : ℤ) % 2 = 0 <;> simp only [h1, h2, h3, if_true, if_false] <;> omega

theorem round2_sub_le (q : ℚ) : |round2 q - q| ≤ 1/200 := by
  have h := pyRound_sub_le (100 * q)
  unfold round2
  rw [show (pyRound (100*q) : ℚ)/100 - q = ((pyRound (100*q) : ℚ) - 100*q)/100 by ring,
    abs_div, abs_of_pos (by norm_num : (0:ℚ) < 100)]
  linarith [h]

theorem round2_nonneg {q : ℚ} (h : 0 ≤ q) : 0 ≤ round2 q := by
  unfold round2
  have := pyRound_nonneg (by linarith : (0:ℚ) ≤ 100 * q)
  positivity

/-! ## MoneyQuest data model (`src/MoneyQuest/app.py`) -/

/-- `MonthlySnapshot` dataclass. -/
structure MonthlySnapshot where
  month : ℤ
  netWorth : ℤ
  cash : ℤ
  savings : ℤ
  debt : ℤ
  creditScore : ℤ
deriving DecidableEq, Repr

/-- `Income` dataclass with its field defaults. -/
structure Income where
  hoursPerWeek : ℚ := 20
  wagePerHour : ℚ := 15
  withholdingRate : ℚ := 12/100
deriving DecidableEq, Repr

/-- `PlayerState` dataclass with its field defaults.  The Python defaults for
`choices` and `history` are `None`, replaced by `{}` / `[]` by `get_state`
before any use; valid states (the ones all engine code operates on) carry a
dict and a list, modelled here as an association list and a list. -/
structure PlayerState where
  month : ℤ := 1
  cash : ℤ := 200
  savings : ℤ := 100
  debt : ℤ := 0
  creditScore : ℤ := 680
  income : Income := {}
  budget_needs : ℚ := 1/2
  budget_wants : ℚ := 3/10
  budget_savings : ℚ := 1/5
  choices : List (String × String) := []
  history : List MonthlySnapshot := []
deriving DecidableEq, Repr

/-! ## MoneyQuest engines -/

/-- `compute_net_pay`: gross = hours×wage×4, withheld = gross×rate,
net = gross − withheld, all rounded to 2 decimals. -/
def compute_net_pay (hours_per_week wage withholding_rate : ℚ) : ℚ × ℚ × ℚ :=
  let gross := hours_per_week * wage * 4
  let withheld := gross * withholding_rate
  let net := gross - withheld
  (round2 gross, round2 withheld, round2 net)

/-- `apply_budget`: allocate income to needs/wants/savings, covering fixed
needs first (direct transcription of the source, including the
`max(0.0, ...)` clamps and the final 2-decimal rounding). -/
def apply_budget (net_income needs_p wants_p savings_p fixed_needs_costs : ℚ) :
    ℚ × ℚ × ℚ × ℚ :=
  let planned_needs := net_income * needs_p
  let planned_wants := net_income * wants_p
  let planned_savings := net_income * savings_p
  let remaining := max 0 (net_income - fixed_needs_costs)
  let wants_spend := max 0 (min planned_wants (remaining - planned_savings))
  let savings_add := max 0 (min planned_savings (remaining - wants_spend))
  let needs_spend := fixed_needs_costs + max 0 (planned_needs - fixed_needs_costs)
  let leftover := max 0 (remaining - wants_spend - savings_add)
  (round2 needs_spend, round2 wants_spend, round2 savings_add, round2 leftover)

/-- `update_credit_score`: +8 on-time / −25 late, then utilization tiers,
clamped to [300, 850].  (`int(round(nxt))` in the source is the identity
because `nxt` is an integer.) -/
def update_credit_score (current : ℤ) (utilization : ℚ) (on_time_payment : Bool) : ℤ :=
  let nxt := current + (if on_time_payment then 8 else -25)
  let nxt := nxt +
    (if utilization < 1/10 then 6
     else if utilization < 3/10 then 2
     else if utilization < 1/2 then -6
     else -12)
  max 300 (min 850 nxt)

/-- `min_payment = min(25, state.debt)` — computed on the debt BEFORE
interest in the source. -/
def min_payment_of (debt : ℤ) : ℤ := min 25 debt

/-- `debt_after_interest = math.ceil(state.debt * 1.02)`.  For integer debts
the float product `debt * 1.02` rounds to a double strictly less than the
next integer above `1.02·debt` (the relative error of the literal `1.02` is
below half an ulp), so the ceiling agrees with the exact rational one. -/
def debt_after_interest (debt : ℤ) : ℤ := ⌈(debt : ℚ) * (102/100)⌉

/-- `(state.choices or {}).get("credit_card") == "pay_full"`. -/
def pay_full_choice (choices : List (String × String)) : Bool :=
  match choices.lookup "credit_card" with
  | some v => v == "pay_full"
  | none => false

/-- `payment = debt_after_interest if pay_full_choice else min_payment`. -/
def payment_of (debt : ℤ) (pay_full : Bool) : ℤ :=
  if pay_full then debt_after_interest debt else min_payment_of debt

/-- `new_debt = max(0, debt_after_interest - payment)`. -/
def new_debt_of (debt : ℤ) (pay_full : Bool) : ℤ :=
  max 0 (debt_after_interest debt - payment_of debt pay_full)

/-- Result record for `close_month`: the Python function returns
`(snapshot, pay tuple, allocation tuple)` and mutates `state` in place; the
mutated state is returned here as a fourth component. -/
structure CloseMonthResult where
  snapshot : MonthlySnapshot
  pay : ℚ × ℚ × ℚ
  alloc : ℚ × ℚ × ℚ × ℚ
  newState : PlayerState
deriving DecidableEq, Repr

/-- `close_month`: end-of-month update (paycheck, budget, credit-card model,
balance and score update, snapshot appended to history, month += 1). -/
def close_month (state : PlayerState) (fixed_needs_costs : ℚ)
    (credit_limit : ℤ := 500) : CloseMonthResult :=
  let pay := compute_net_pay state.income.hoursPerWeek state.income.wagePerHour
    state.income.withholdingRate
  let net_income := pay.2.2
  let alloc := apply_budget net_income state.budget_needs state.budget_wants
    state.budget_savings fixed_needs_costs
  let needs_spend := alloc.1
  let wants_spend := alloc.2.1
  let savings_add := alloc.2.2.1
  let leftover := alloc.2.2.2
  let min_payment := min_payment_of state.debt
  let pay_full := pay_full_choice state.choices
  let payment := payment_of state.debt pay_full
  let new_debt := new_debt_of state.debt pay_full
  let new_cash := pyRound ((state.cash : ℚ) + leftover - payment - wants_spend - needs_spend)
  let new_savings := pyRound ((state.savings : ℚ) + savings_add)
  let utilization : ℚ := if credit_limit = 0 then 0 else (new_debt : ℚ) / credit_limit
  let new_score := update_credit_score state.creditScore utilization
    (decide (min_payment ≤ payment))
  let snapshot : MonthlySnapshot :=
    { month := state.month
      netWorth := new_cash + new_savings - new_debt
      cash := new_cash
      savings := new_savings
      debt := new_debt
      creditScore := new_score }
  { snapshot := snapshot
    pay := pay
    alloc := alloc
    newState :=
      { state with
        month := state.month + 1
        cash := new_cash
        savings := new_savings
        debt := new_debt
        creditScore := new_score
        history := state.history ++ [snapshot] } }

/-! ## MoneyQuest save codec (`export_save` / `import_save`)

`export_save` serializes the full state to JSON; `import_save` parses it and
fills missing fields via `dict.get(key, default)`.  The parsed `"state"`
object is modelled by a record of `Option` fields (a missing key is `none`);
the `int(...)` / `float(...)` coercions of the source are identities on the
well-typed values produced by `export_save`. -/

/-- Parsed MoneyQuest save document (the `"state"` object), one `Option`
field per key `import_save` reads. -/
structure MQSaveDoc where
  month : Option ℤ := none
  cash : Option ℤ := none
  savings : Option ℤ := none
  debt : Option ℤ := none
  creditScore : Option ℤ := none
  hoursPerWeek : Option ℚ := none
  wagePerHour : Option ℚ := none
  withholdingRate : Option ℚ := none
  budget_needs : Option ℚ := none
  budget_wants : Option ℚ := none
  budget_savings : Option ℚ := none
  choices : Option (List (String × String)) := none
  history : Option (List MonthlySnapshot) := none
deriving DecidableEq, Repr

/-- `export_save`: every field of the state is written out. -/
def export_save (s : PlayerState) : MQSaveDoc :=
  { month := some s.month
    cash := some s.cash
    savings := some s.savings
    debt := some s.debt
    creditScore := some s.creditScore
    hoursPerWeek := some s.income.hoursPerWeek
    wagePerHour := some s.income.wagePerHour
    withholdingRate := some s.income.withholdingRate
    budget_needs := some s.budget_needs
    budget_wants := some s.budget_wants
    budget_savings := some s.budget_savings
    choices := some s.choices
    history := some s.history }

/-- `import_save` success path: `s.get(key, default)` per field, with the
defaults written in the source (`month=1, cash=0, savings=0, debt=0,
creditScore=680`, income `20/15/0.12`, budget `0.5/0.3/0.2`, empty
choices/history). -/
def import_save (d : MQSaveDoc) : PlayerState :=
  { month := d.month.getD 1
    cash := d.cash.getD 0
    savings := d.savings.getD 0
    debt := d.debt.getD 0
    creditScore := d.creditScore.getD 680
    income :=
      { hoursPerWeek := d.hoursPerWeek.getD 20
        wagePerHour := d.wagePerHour.getD 15
        withholdingRate := d.withholdingRate.getD (12/100) }
    budget_needs := d.budget_needs.getD (1/2)
    budget_wants := d.budget_wants.getD (3/10)
    budget_savings := d.budget_savings.getD (1/5)
    choices := d.choices.getD []
    history := d.history.getD [] }

/-! ## Daily quiz app (`src/app.py`)

### Scoring constants -/

def POINTS_CORRECT : ℤ := 10
def POINTS_CORRECT_HINT : ℤ := 5
def POINTS_PERFECT_BONUS : ℤ := 20
def PROGRESS_FINISH_PER_Q : ℤ := 6

/-! ### Play session state machine

`PlaySession` carries exactly the fields of the Python dataclass that the
scoring logic reads or writes; the fixed question list is abstracted to its
length `numQuestions` (= `len(play.questions)`), and each recorded
`QAResult` to its `(correct, used_hint)` pair — the scoring path of the
source only ever consults `r.correct` (and stores `used_hint`), never the
question content.  Whether a submitted answer is correct is the boolean the
checker functions (`check_mc` / `check_tf` / `check_fib` /
`check_numeric_text`) produce; it is passed to `submitStep` as an input. -/

structure PlaySession where
  numQuestions : ℕ
  idx : ℕ := 0
  score_today : ℤ := 0
  results : List (Bool × Bool) := []
  answered : Bool := false
  used_hint : Bool := false
  completed : Bool := false
  correct_streak : ℕ := 0
  answered_count : ℕ := 0
  progress_visual : ℚ := 0
  finished_by_progress : Bool := false
deriving DecidableEq, Repr

/-- Fresh session for a day with `n` questions (`PlaySession(date, qs)`). -/
def initSession (n : ℕ) : PlaySession := { numQuestions := n }

/-- `sum(1 for r in play.results if r.correct)`. -/
def countCorrect (rs : List (Bool × Bool)) : ℕ := (rs.filter (fun r => r.1)).length

/-- The combo boost of the source:
`1.0 if streak==1 else 1.5 if streak==2 else 1.8 if streak==3 else 2.0`. -/
def boostOf (streak : ℕ) : ℚ :=
  if streak = 1 then 1 else if streak = 2 then 3/2 else if streak = 3 then 9/5 else 2

/-- `finish_day_by_progress_if_needed`: when the progress bar has reached
1.0 and the session is not yet completed, award
`max(0, numQuestions - answered_count) * PROGRESS_FINISH_PER_Q` (the `ℕ`
subtraction is the `max(0, ·)`) and complete the session, marking it as
finished by progress.  (The source guards the score update with
`bonus > 0`, which is equivalent because adding 0 changes nothing.) -/
def finishByProgress (p : PlaySession) : PlaySession :=
  if ¬ p.completed ∧ 1 ≤ p.progress_visual then
    let remaining : ℕ := p.numQuestions - p.answered_count
    { p with
      score_today := p.score_today + (remaining : ℤ) * PROGRESS_FINISH_PER_Q
      finished_by_progress := true
      completed := true }
  else p

/-- The hint button: `play.used_hint = True` when the current question is
not yet answered (repeated requests are no-ops on an already-set flag). -/
def hintStep (p : PlaySession) : PlaySession :=
  if ¬ p.answered ∧ ¬ p.completed then { p with used_hint := true } else p

/-- The post-submit block of the source (`if submitted and not play.answered:`):
score the answer (+10 correct without hint, +5 with hint, +0 incorrect),
append the result, advance the combo/progress bar
(`min(1.0, progress + (1/numQuestions) * boost)` on a correct answer,
`min(1.0, progress + 1/numQuestions)` on an incorrect one), then run
`finish_day_by_progress_if_needed`.  The question widgets are only rendered
while the session is not completed, and the submit handler is guarded by
`not play.answered`. -/
def submitStep (got_right : Bool) (p : PlaySession) : PlaySession :=
  if p.answered ∨ p.completed then p
  else
    let gained : ℤ :=
      if got_right ∧ ¬ p.used_hint then POINTS_CORRECT
      else if got_right ∧ p.used_hint then POINTS_CORRECT_HINT
      else 0
    let p1 := { p with
      score_today := p.score_today + gained
      results := p.results ++ [(got_right, got_right && p.used_hint)]
      answered := true
      answered_count := p.answered_count + 1 }
    let p2 :=
      if got_right then
        let cs := p1.correct_streak + 1
        { p1 with
          correct_streak := cs
          progress_visual :=
            min 1 (p1.progress_visual + (1 / (p.numQuestions : ℚ)) * boostOf cs) }
      else
        { p1 with
          correct_streak := 0
          progress_visual := min 1 (p1.progress_visual + 1 / (p.numQuestions : ℚ)) }
    finishByProgress p2

/-- The Next button (shown only when `play.answered and not play.completed`):
`idx += 1`, reset the per-question flags, and if all questions have been
passed, add the perfect bonus when every recorded result is correct and
complete the session. -/
def nextStep (p : PlaySession) : PlaySession :=
  if p.answered ∧ ¬ p.completed then
    let i := p.idx + 1
    let base := { p with idx := i, answered := false, used_hint := false }
    if p.numQuestions ≤ i then
      let withBonus :=
        if countCorrect p.results = p.numQuestions then
          { base with score_today := base.score_today + POINTS_PERFECT_BONUS }
        else base
      { withBonus with completed := true }
    else base
  else p

/-- The one-time day-completion recording block (guarded by the
`recorded_today` marker): before the day's score is added to
`save.total_points` and appended to `save.history`, the block adds
`POINTS_PERFECT_BONUS` once more when the session did not finish by
progress and every recorded result was correct.  `recordedScore` is the
score value the block records. -/
def recordedScore (p : PlaySession) : ℤ :=
  p.score_today +
    (if ¬ p.finished_by_progress ∧ countCorrect p.results = p.numQuestions then
      POINTS_PERFECT_BONUS
    else 0)

/-- Whether the recording block sets the `perfect_day` badge. -/
def perfectBadgeAwarded (p : PlaySession) : Bool :=
  ¬ p.finished_by_progress ∧ countCorrect p.results = p.numQuestions

/-- One user interaction round: submit an answer whose correctness is `a`,
then (unless the submit completed the session) press Next.  A completed
session ignores further input (the completed branch of the page renders no
question widgets). -/
def stepAnswer (p : PlaySession) (a : Bool) : PlaySession :=
  if p.completed then p
  else if (submitStep a p).completed then submitStep a p
  else nextStep (submitStep a p)

/-- Play a whole day: starting from a fresh session with `n` questions,
submit answers with the given correctness values in order, pressing Next
after each. -/
def playList (n : ℕ) (answers : List Bool) : PlaySession :=
  answers.foldl stepAnswer (initSession n)

/-! ### Text sanitizer (`normalize_unicode` / `clean_text`)

Strings are modelled as `List Char`.  The regex substitutions of the source
are implemented as left-to-right scanners with the exact leftmost/greedy
semantics of `re.sub`, and `str.replace` as a left-to-right non-overlapping
scanner. -/

/-- The zero-width character class `[​-‍﻿]`. -/
def isZW (c : Char) : Bool :=
  decide ((0x200B ≤ c.toNat ∧ c.toNat ≤ 0x200D) ∨ c.toNat = 0xFEFF)

/-- The control character class `[\u0000-\u001F\u007F]`. -/
def isCtrl (c : Char) : Bool :=
  decide (c.toNat ≤ 0x1F ∨ c.toNat = 0x7F)

/-- Python's `\s` on `str` (= `Py_UNICODE_ISSPACE`, also the set stripped
by `str.strip()`): ASCII whitespace, the separator controls 1C–1F, and the
Unicode whitespace characters. -/
def pyIsSpace (c : Char) : Bool :=
  decide (c.toNat = 0x20 ∨ (0x09 ≤ c.toNat ∧ c.toNat ≤ 0x0D) ∨
    (0x1C ≤ c.toNat ∧ c.toNat ≤ 0x1F) ∨ c.toNat = 0x85 ∨ c.toNat = 0xA0 ∨
    c.toNat = 0x1680 ∨ (0x2000 ≤ c.toNat ∧ c.toNat ≤ 0x200A) ∨
    c.toNat = 0x2028 ∨ c.toNat = 0x2029 ∨ c.toNat = 0x202F ∨
    c.toNat = 0x205F ∨ c.toNat = 0x3000)

/-- The combining acute accent U+0301. -/
def combAcute : Char := '\u0301'

/-- Latin small letter a with acute U+00E1. -/
def aAcute : Char := '\u00E1'

/-- Model of `unicodedata.normalize("NFKC", ·)` restricted to the
characters appearing in this development: per the Unicode data, `'a'`
immediately followed by the combining acute U+0301 composes to U+00E1
(canonical composition), and every other character used here (ASCII, the
zero-width characters, U+00E1 itself) is NFKC-inert — it has no
compatibility decomposition and forms no composable pair. -/
def nfkc : List Char → List Char
  | [] => []
  | [c] => [c]
  | a :: c :: rest =>
    if a = 'a' ∧ c = combAcute then aAcute :: nfkc rest
    else a :: nfkc (c :: rest)

/-- `re.sub(_ZW_CHARS, "", s)`. -/
def removeZW (l : List Char) : List Char := l.filter (fun c => ¬ isZW c)

/-- `re.sub(_CTRL_CHARS, " ", s)`. -/
def ctrlToSpace (l : List Char) : List Char :=
  l.map (fun c => if isCtrl c then ' ' else c)

/-- Scanner for `re.sub(r"\s+", " ", s)`; the flag records whether the
previous character belonged to a whitespace run already replaced. -/
def collapseAux : Bool → List Char → List Char
  | _, [] => []
  | prevWs, c :: cs =>
    if pyIsSpace c then
      if prevWs then collapseAux true cs else ' ' :: collapseAux true cs
    else c :: collapseAux false cs

/-- `re.sub(r"\s+", " ", s)`. -/
def collapseWS (l : List Char) : List Char := collapseAux false l

/-- Scanner for `re.sub(r"\s*,\s*", ", ", s)`.  `swallow` is true while the
trailing `\s*` of a match is being consumed; `pend` buffers a whitespace
run that may become the leading `\s*` of the next match (it is flushed
unchanged when the run is not followed by a comma — no match can start
inside such a run, since every start would need a comma after optional
whitespace). -/
def commaAux : Bool → List Char → List Char → List Char
  | _, pend, [] => pend
  | swallow, pend, c :: cs =>
    if pyIsSpace c then
      if swallow then commaAux true pend cs
      else commaAux false (pend ++ [c]) cs
    else if c = ',' then ',' :: ' ' :: commaAux true [] cs
    else pend ++ (c :: commaAux false [] cs)

/-- `re.sub(r"\s*,\s*", ", ", s)`. -/
def commaSub (l : List Char) : List Char := commaAux false [] l

/-- Scanner for `re.sub(r"\s+\.", ".", s)`: a nonempty buffered whitespace
run followed by a period is replaced by the period alone. -/
def periodAux : List Char → List Char → List Char
  | pend, [] => pend
  | pend, c :: cs =>
    if pyIsSpace c then periodAux (pend ++ [c]) cs
    else if c = '.' ∧ pend ≠ [] then '.' :: periodAux [] cs
    else pend ++ (c :: periodAux [] cs)

/-- `re.sub(r"\s+\.", ".", s)`. -/
def periodSub (l : List Char) : List Char := periodAux [] l

/-- `s.replace(" ,", ",")`: left-to-right, non-overlapping. -/
def swapSub : List Char → List Char
  | [] => []
  | [c] => [c]
  | a :: b :: rest =>
    if a = ' ' ∧ b = ',' then ',' :: swapSub rest
    else a :: swapSub (b :: rest)

/-- `s.strip()`. -/
def stripWS (l : List Char) : List Char :=
  ((l.dropWhile pyIsSpace).reverse.dropWhile pyIsSpace).reverse

/-- `clean_text` on a string value: NFKC-normalize, delete zero-width
characters, replace control characters by spaces, collapse whitespace runs,
normalize spacing around commas, drop whitespace before periods, replace
`" ,"` by `","`, and strip. -/
def clean_text (l : List Char) : List Char :=
  stripWS (swapSub (periodSub (commaSub (collapseWS (ctrlToSpace (removeZW (nfkc l)))))))

/-! ### Properties of the text sanitizer

The idempotence analysis works over lists whose only whitespace character
is `' '` (after `ctrlToSpace` this holds for ASCII input).  `GoodL` states
that; the `Chain'` relations describe the shape of the intermediate stages
of the pipeline, and `Rclean` the shape of a fully cleaned string: no
whitespace except single interior spaces, no space before `' '`, `','` or
`'.'`, and every comma followed by `' '`, `','`, `'.'` or the end. -/

def GoodL (l : List Char) : Prop := ∀ c ∈ l, pyIsSpace c = true → c = ' '

def no2sp (a b : Char) : Prop := ¬ (a = ' ' ∧ b = ' ')

def commaNext (a b : Char) : Prop := a = ',' → b = ' '

def commaNext2 (a b : Char) : Prop := a = ',' → b = ' ' ∨ b = '.'

def noSpDot (a b : Char) : Prop := a = ' ' → b ≠ '.'

def Rclean (a b : Char) : Prop :=
  (a = ' ' → b ≠ ' ' ∧ b ≠ ',' ∧ b ≠ '.') ∧
  (a = ',' → b = ' ' ∨ b = ',' ∨ b = '.')

theorem char_eq_space_of_toNat {c : Char} (h : c.toNat = 32) : c = ' ' := by
  have h2 := Char.ofNat_toNat c
  rw [h] at h2
  rw [← h2]

theorem ascii_space {c : Char} (h1 : c.toNat < 128) (h2 : isCtrl c = false)
    (h3 : pyIsSpace c = true) : c = ' ' := by
  unfold pyIsSpace at h3
  rw [decide_eq_true_iff] at h3
  unfold isCtrl at h2
  have h2' : ¬ (c.toNat ≤ 0x1F ∨ c.toNat = 0x7F) := by
    intro hcon
    rw [decide_eq_true_iff.2 hcon] at h2
    exact Bool.false_ne_true h2.symm
  rcases h3 with h | h | h | h | h | h | h | h | h | h | h | h
  · exact char_eq_space_of_toNat h
  all_goals omega

theorem pyIsSpace_space : pyIsSpace ' ' = true := by decide

theorem nonspace_of_ne {c : Char} (hg : pyIsSpace c = true → c = ' ')
    (h : c ≠ ' ') : pyIsSpace c = false := by
  cases hs : pyIsSpace c
  · rfl
  · exact absurd (hg hs) h

theorem space_ne_of_nonspace {c : Char} (h : pyIsSpace c = false) : c ≠ ' ' := by
  intro hc
  rw [hc, pyIsSpace_space] at h
  exact Bool.false_ne_true h.symm

theorem GoodL.tail {c : Char} {l : List Char} (h : GoodL (c :: l)) : GoodL l :=
  fun x hx => h x (List.mem_cons_of_mem c hx)

theorem GoodL.head {c : Char} {l : List Char} (h : GoodL (c :: l)) :
    pyIsSpace c = true → c = ' ' := h c (List.mem_cons_self c l)

/-! Step equations for the scanner machines, used to compute them on
strings whose head structure is known. -/

theorem commaAux_ws {sw : Bool} {pend : List Char} {c : Char} {X : List Char}
    (h : pyIsSpace c = true) :
    commaAux sw pend (c :: X) =
      (if sw then commaAux true pend X else commaAux false (pend ++ [c]) X) := by
  cases sw <;> simp [commaAux, h]

theorem commaAux_comma {sw : Bool} {pend : List Char} {X : List Char} :
    commaAux sw pend (',' :: X) = ',' :: ' ' :: commaAux true [] X := by
  cases sw <;> simp [commaAux, pyIsSpace]

theorem commaAux_other {sw : Bool} {pend : List Char} {c : Char} {X : List Char}
    (h1 : pyIsSpace c = false) (h2 : c ≠ ',') :
    commaAux sw pend (c :: X) = pend ++ (c :: commaAux false [] X) := by
  cases sw <;> simp [commaAux, h1, h2]

theorem periodAux_ws {pend : List Char} {c : Char} {X : List Char}
    (h : pyIsSpace c = true) :
    periodAux pend (c :: X) = periodAux (pend ++ [c]) X := by
  simp [periodAux, h]

theorem periodAux_dot {pend : List Char} {X : List Char} (h : pend ≠ []) :
    periodAux pend ('.' :: X) = '.' :: periodAux [] X := by
  simp [periodAux, pyIsSpace, h]

theorem periodAux_other {pend : List Char} {c : Char} {X : List Char}
    (h1 : pyIsSpace c = false) (h2 : ¬ (c = '.' ∧ pend ≠ [])) :
    periodAux pend (c :: X) = pend ++ (c :: periodAux [] X) := by
  simp [periodAux, h1, h2]

theorem swapSub_pair {X : List Char} : swapSub (' ' :: ',' :: X) = ',' :: swapSub X := by
  simp [swapSub]

theorem swapSub_cons {c : Char} {X : List Char} (h : c ≠ ' ') :
    swapSub (c :: X) = c :: swapSub X := by
  cases X with
  | nil => rfl
  | cons b bs => simp [swapSub, h]

theorem swapSub_sp {X : List Char} (h : X.head? ≠ some ',') :
    swapSub (' ' :: X) = ' ' :: swapSub X := by
  cases X with
  | nil => rfl
  | cons b bs =>
    have hb : b ≠ ',' := by
      intro hcon
      rw [hcon] at h
      exact h rfl
    simp [swapSub, hb]

theorem head?_mem {α : Type} {a : α} {l : List α} (h : l.head? = some a) : a ∈ l := by
  cases l <;> simp_all

theorem collapseAux_ws {b : Bool} {c : Char} {X : List Char} (h : pyIsSpace c = true) :
    collapseAux b (c :: X) =
      if b then collapseAux true X else ' ' :: collapseAux true X := by
  cases b <;> simp [collapseAux, h]

theorem collapseAux_other {b : Bool} {c : Char} {X : List Char} (h : pyIsSpace c = false) :
    collapseAux b (c :: X) = c :: collapseAux false X := by
  cases b <;> simp [collapseAux, h]

theorem bool_eq_false {b : Bool} (h : ¬ b = true) : b = false := by
  cases b
  · rfl
  · exact absurd rfl h

/-- Characters of `collapseAux` output come from the input or are `' '`. -/
theorem mem_collapseAux {c : Char} : ∀ (l : List Char) (b : Bool),
    c ∈ collapseAux b l → c = ' ' ∨ c ∈ l := by
  intro l
  induction l with
  | nil => intro b h; simp [collapseAux] at h
  | cons a tl ih =>
    intro b h
    by_cases ha : pyIsSpace a = true
    · rw [collapseAux_ws ha] at h
      cases b with
      | true =>
        rw [if_pos rfl] at h
        rcases ih true h with h1 | h1
        · exact Or.inl h1
        · exact Or.inr (List.mem_cons_of_mem a h1)
      | false =>
        rw [if_neg (by simp)] at h
        rcases List.mem_cons.1 h with h1 | h1
        · exact Or.inl h1
        · rcases ih true h1 with h2 | h2
          · exact Or.inl h2
          · exact Or.inr (List.mem_cons_of_mem a h2)
    · rw [collapseAux_other (bool_eq_false ha)] at h
      rcases List.mem_cons.1 h with h1 | h1
      · exact Or.inr (h1 ▸ List.mem_cons_self a tl)
      · rcases ih false h1 with h2 | h2
        · exact Or.inl h2
        · exact Or.inr (List.mem_cons_of_mem a h2)

/-- Characters of `commaAux` output come from the input or the pending
buffer or are `' '` or `','`. -/
theorem mem_commaAux {c : Char} : ∀ (l : List Char) (sw : Bool) (pend : List Char),
    c ∈ commaAux sw pend l → c = ' ' ∨ c = ',' ∨ c ∈ pend ∨ c ∈ l := by
  intro l
  induction l with
  | nil => intro sw pend h; simp only [commaAux] at h; exact Or.inr (Or.inr (Or.inl h))
  | cons a tl ih =>
    intro sw pend h
    by_cases ha : pyIsSpace a = true
    · rw [commaAux_ws ha] at h
      cases sw with
      | true =>
        rcases ih true pend h with h1 | h1 | h1 | h1
        · exact Or.inl h1
        · exact Or.inr (Or.inl h1)
        · exact Or.inr (Or.inr (Or.inl h1))
        · exact Or.inr (Or.inr (Or.inr (List.mem_cons_of_mem a h1)))
      | false =>
        simp only [if_false, Bool.false_eq_true] at h
        rcases ih false (pend ++ [a]) h with h1 | h1 | h1 | h1
        · exact Or.inl h1
        · exact Or.inr (Or.inl h1)
        · rcases List.mem_append.1 h1 with h2 | h2
          · exact Or.inr (Or.inr (Or.inl h2))
          · simp only [List.mem_singleton] at h2
            exact Or.inr (Or.inr (Or.inr (h2 ▸ List.mem_cons_self a tl)))
        · exact Or.inr (Or.inr (Or.inr (List.mem_cons_of_mem a h1)))
    · by_cases hac : a = ','
      · subst hac
        rw [commaAux_comma] at h
        rcases List.mem_cons.1 h with h1 | h1
        · exact Or.inr (Or.inl h1)
        rcases List.mem_cons.1 h1 with h2 | h2
        · exact Or.inl h2
        rcases ih true [] h2 with h3 | h3 | h3 | h3
        · exact Or.inl h3
        · exact Or.inr (Or.inl h3)
        · simp at h3
        · exact Or.inr (Or.inr (Or.inr (List.mem_cons_of_mem _ h3)))
      · rw [commaAux_other (bool_eq_false ha) hac] at h
        rcases List.mem_append.1 h with h1 | h1
        · exact Or.inr (Or.inr (Or.inl h1))
        rcases List.mem_cons.1 h1 with h2 | h2
        · exact Or.inr (Or.inr (Or.inr (h2 ▸ List.mem_cons_self a tl)))
        rcases ih false [] h2 with h3 | h3 | h3 | h3
        · exact Or.inl h3
        · exact Or.inr (Or.inl h3)
        · simp at h3
        · exact Or.inr (Or.inr (Or.inr (List.mem_cons_of_mem a h3)))

/-- Characters of `periodAux` output come from the input or the pending
buffer. -/
theorem mem_periodAux {c : Char} : ∀ (l : List Char) (pend : List Char),
    c ∈ periodAux pend l → c ∈ pend ∨ c ∈ l := by
  intro l
  induction l with
  | nil => intro pend h; simp only [periodAux] at h; exact Or.inl h
  | cons a tl ih =>
    intro pend h
    by_cases ha : pyIsSpace a = true
    · rw [periodAux_ws ha] at h
      rcases ih (pend ++ [a]) h with h1 | h1
      · rcases List.mem_append.1 h1 with h2 | h2
        · exact Or.inl h2
        · simp only [List.mem_singleton] at h2
          exact Or.inr (h2 ▸ List.mem_cons_self a tl)
      · exact Or.inr (List.mem_cons_of_mem a h1)
    · by_cases had : a = '.' ∧ pend ≠ []
      · obtain ⟨ha1, ha2⟩ := had
        subst ha1
        rw [periodAux_dot ha2] at h
        rcases List.mem_cons.1 h with h1 | h1
        · exact Or.inr (h1 ▸ List.mem_cons_self _ tl)
        · rcases ih [] h1 with h2 | h2
          · simp at h2
          · exact Or.inr (List.mem_cons_of_mem _ h2)
      · rw [periodAux_other (bool_eq_false ha) had] at h
        rcases List.mem_append.1 h with h1 | h1
        · exact Or.inl h1
        rcases List.mem_cons.1 h1 with h2 | h2
        · exact Or.inr (h2 ▸ List.mem_cons_self a tl)
        · rcases ih [] h2 with h3 | h3
          · simp at h3
          · exact Or.inr (List.mem_cons_of_mem a h3)

/-- Characters of `swapSub` output come from the input or are `','`. -/
theorem mem_swapSub {c : Char} : ∀ (l : List Char), c ∈ swapSub l → c = ',' ∨ c ∈ l := by
  intro l
  induction l using swapSub.induct with
  | case1 => intro h; simp [swapSub] at h
  | case2 d => intro h; simp only [swapSub] at h; exact Or.inr h
  | case3 a b rest hab ih =>
    intro h
    obtain ⟨ha, hb⟩ := hab
    subst ha; subst hb
    rw [swapSub_pair] at h
    rcases List.mem_cons.1 h with h1 | h1
    · exact Or.inl h1
    · rcases ih h1 with h2 | h2
      · exact Or.inl h2
      · exact Or.inr (List.mem_cons_of_mem _ (List.mem_cons_of_mem _ h2))
  | case4 a b rest hab ih =>
    intro h
    have : swapSub (a :: b :: rest) = a :: swapSub (b :: rest) := by
      simp only [swapSub, if_neg hab]
    rw [this] at h
    rcases List.mem_cons.1 h with h1 | h1
    · exact Or.inr (h1 ▸ List.mem_cons_self a _)
    · rcases ih h1 with h2 | h2
      · exact Or.inl h2
      · exact Or.inr (List.mem_cons_of_mem a h2)

theorem mem_stripWS {c : Char} {l : List Char} (h : c ∈ stripWS l) : c ∈ l := by
  unfold stripWS at h
  rw [List.mem_reverse] at h
  have h1 := (List.dropWhile_suffix pyIsSpace).subset h
  rw [List.mem_reverse] at h1
  exact (List.dropWhile_suffix pyIsSpace).subset h1

/-- In swallow mode with an empty buffer, the next emitted character is
never a space: whitespace is dropped, and the first emission is either a
comma or a non-whitespace character. -/
theorem commaAux_true_head : ∀ X : List Char, (commaAux true [] X).head? ≠ some ' ' := by
  intro X
  induction X with
  | nil => simp [commaAux]
  | cons a tl ih =>
    by_cases ha : pyIsSpace a = true
    · rw [commaAux_ws ha, if_pos rfl]
      exact ih
    · by_cases hac : a = ','
      · subst hac
        rw [commaAux_comma]
        simp
      · rw [commaAux_other (bool_eq_false ha) hac]
        simp only [List.nil_append, List.head?_cons]
        intro hcon
        rw [Option.some_inj] at hcon
        exact space_ne_of_nonspace (bool_eq_false ha) hcon

/-- When the pending buffer starts with a space, `periodAux` emits either
that space or a period first. -/
theorem periodAux_head : ∀ (X pend p' : List Char), pend = ' ' :: p' →
    (periodAux pend X).head? = some ' ' ∨ (periodAux pend X).head? = some '.' := by
  intro X
  induction X with
  | nil => intro pend p' hp; subst hp; simp [periodAux]
  | cons a tl ih =>
    intro pend p' hp
    by_cases ha : pyIsSpace a = true
    · rw [periodAux_ws ha]
      exact ih (pend ++ [a]) (p' ++ [a]) (by rw [hp]; rfl)
    · by_cases had : a = '.'
      · subst had
        rw [periodAux_dot (by rw [hp]; simp)]
        simp
      · rw [periodAux_other (bool_eq_false ha) (fun hcon => had hcon.1), hp]
        simp

/-- `swapSub` preserves the head, except that a leading `" ,"` becomes
`","`. -/
theorem swapSub_head : ∀ X : List Char,
    (swapSub X).head? = X.head? ∨ (X.head? = some ' ' ∧ (swapSub X).head? = some ',') := by
  intro X
  match X with
  | [] => exact Or.inl rfl
  | [c] => exact Or.inl rfl
  | a :: b :: rest =>
    by_cases hab : a = ' ' ∧ b = ','
    · obtain ⟨ha, hb⟩ := hab
      subst ha; subst hb
      rw [swapSub_pair]
      exact Or.inr ⟨rfl, rfl⟩
    · rw [show swapSub (a :: b :: rest) = a :: swapSub (b :: rest) from by
        simp only [swapSub, if_neg hab]]
      exact Or.inl rfl

/-- The output of `collapseWS` has no two adjacent spaces; in the middle of
a run (`b = true`) the next emitted character is never a space. -/
theorem collapseAux_chain : ∀ (l : List Char) (b : Bool),
    List.Chain' no2sp (collapseAux b l) ∧
    (b = true → (collapseAux b l).head? ≠ some ' ') := by
  intro l
  induction l with
  | nil =>
    intro b
    constructor
    · exact List.chain'_nil
    · intro _; simp [collapseAux]
  | cons a tl ih =>
    intro b
    by_cases ha : pyIsSpace a = true
    · rw [collapseAux_ws ha]
      cases b with
      | true =>
        rw [if_pos rfl]
        exact ⟨(ih true).1, fun _ => (ih true).2 rfl⟩
      | false =>
        rw [if_neg (by simp)]
        refine ⟨List.chain'_cons'.2 ⟨?_, (ih true).1⟩, fun hcon => by simp at hcon⟩
        intro y hy
        simp only [Option.mem_def] at hy
        intro hcon
        exact (ih true).2 rfl (by rw [hy, hcon.2])
    · rw [collapseAux_other (bool_eq_false ha)]
      have hane : a ≠ ' ' := space_ne_of_nonspace (bool_eq_false ha)
      refine ⟨List.chain'_cons'.2 ⟨?_, (ih false).1⟩, fun _ => ?_⟩
      · intro y _ hcon
        exact hane hcon.1
      · simp only [List.head?_cons]
        intro hcon
        exact hane (Option.some_inj.1 hcon)

/-- Shape of the `commaSub` output: no double spaces and every comma
followed by a space. -/
theorem commaAux_out : ∀ (l : List Char) (sw : Bool) (pend : List Char),
    GoodL l → List.Chain' no2sp l →
    (pend = [] ∨ (pend = [' '] ∧ ∀ h, l.head? = some h → pyIsSpace h = false)) →
    List.Chain' no2sp (commaAux sw pend l) ∧
    List.Chain' commaNext (commaAux sw pend l) := by
  intro l
  induction l with
  | nil =>
    intro sw pend _ _ hside
    rcases hside with h | ⟨h, _⟩ <;> subst h
    · exact ⟨by simp [commaAux], by simp [commaAux]⟩
    · constructor
      · show List.Chain' no2sp [' ']
        exact List.chain'_singleton _
      · show List.Chain' commaNext [' ']
        exact List.chain'_singleton _
  | cons a tl ih =>
    intro sw pend hg hch hside
    by_cases ha : pyIsSpace a = true
    · have hasp : a = ' ' := hg.head ha
      have hside' : pend = [] := by
        rcases hside with h | ⟨_, hh⟩
        · exact h
        · exact absurd (hh a rfl) (by rw [ha]; simp)
      subst hside'
      rw [commaAux_ws ha]
      cases sw with
      | true =>
        rw [if_pos rfl]
        exact ih true [] hg.tail hch.tail (Or.inl rfl)
      | false =>
        rw [if_neg (by simp)]
        refine ih false [a] hg.tail hch.tail (Or.inr ⟨by rw [hasp], ?_⟩)
        intro h hh
        have hne : ¬ (a = ' ' ∧ h = ' ') :=
          (List.chain'_cons'.1 hch).1 h hh
        refine nonspace_of_ne (hg h (List.mem_cons_of_mem a (head?_mem hh))) ?_
        intro hcon
        exact hne ⟨hasp, hcon⟩
    · by_cases hac : a = ','
      · subst hac
        rw [commaAux_comma]
        obtain ⟨hc1, hc2⟩ := ih true [] hg.tail hch.tail (Or.inl rfl)
        constructor
        · refine List.chain'_cons'.2 ⟨?_, ?_⟩
          · intro y hy
            simp only [List.head?_cons, Option.mem_def, Option.some_inj] at hy
            intro hcon
            exact absurd hcon.1 (by decide)
          refine List.chain'_cons'.2 ⟨?_, hc1⟩
          intro y hy hcon
          simp only [Option.mem_def] at hy
          exact commaAux_true_head tl (by rw [hy, hcon.2])
        · refine List.chain'_cons'.2 ⟨?_, ?_⟩
          · intro y hy
            simp only [List.head?_cons, Option.mem_def, Option.some_inj] at hy
            intro _
            rw [hy]
          refine List.chain'_cons'.2 ⟨?_, hc2⟩
          intro y _ hcon
          exact absurd hcon (by decide)
      · have haf : pyIsSpace a = false := bool_eq_false ha
        have hane : a ≠ ' ' := space_ne_of_nonspace haf
        rw [commaAux_other haf hac]
        obtain ⟨hc1, hc2⟩ := ih false [] hg.tail hch.tail (Or.inl rfl)
        have hcons : List.Chain' no2sp (a :: commaAux false [] tl) ∧
            List.Chain' commaNext (a :: commaAux false [] tl) := by
          constructor
          · exact List.chain'_cons'.2 ⟨fun y _ hcon => hane hcon.1, hc1⟩
          · exact List.chain'_cons'.2 ⟨fun y _ hcon => absurd hcon hac, hc2⟩
        rcases hside with h | ⟨h, _⟩
        · subst h
          rw [List.nil_append]
          exact hcons
        · subst h
          rw [List.singleton_append]
          constructor
          · refine List.chain'_cons'.2 ⟨?_, hcons.1⟩
            intro y hy hcon
            simp only [List.head?_cons, Option.mem_def, Option.some_inj] at hy
            exact hane (hy ▸ hcon.2)
          · refine List.chain'_cons'.2 ⟨?_, hcons.2⟩
            intro y _ hcon
            exact absurd hcon (by decide)

/-- Shape of the `periodSub` output on a `commaSub`-shaped input: no double
spaces, no space before a period, and every comma followed by a space or a
period. -/
theorem periodAux_out : ∀ (l pend : List Char),
    GoodL l → List.Chain' no2sp l → List.Chain' commaNext l →
    (pend = [] ∨ (pend = [' '] ∧ ∀ h, l.head? = some h → pyIsSpace h = false)) →
    List.Chain' no2sp (periodAux pend l) ∧
    List.Chain' commaNext2 (periodAux pend l) ∧
    List.Chain' noSpDot (periodAux pend l) := by
  intro l
  induction l with
  | nil =>
    intro pend _ _ _ hside
    rcases hside with h | ⟨h, _⟩ <;> subst h
    · exact ⟨by simp [periodAux], by simp [periodAux], by simp [periodAux]⟩
    · exact ⟨List.chain'_singleton _, List.chain'_singleton _, List.chain'_singleton _⟩
  | cons a tl ih =>
    intro pend hg hch hcn hside
    have hcnx : ∀ y, (periodAux [] tl).head? = some y → a = ',' →
        y = ' ' ∨ y = '.' := by
      intro y hy hac
      cases tl with
      | nil => simp [periodAux] at hy
      | cons b tl2 =>
        have hb : b = ' ' := (List.chain'_cons'.1 hcn).1 b rfl hac
        have hstep : periodAux [] (b :: tl2) = periodAux [' '] tl2 := by
          subst hb
          rw [periodAux_ws pyIsSpace_space]
          rfl
        rw [hstep] at hy
        rcases periodAux_head tl2 [' '] [] rfl with hh | hh
        · rw [hy, Option.some_inj] at hh; exact Or.inl hh
        · rw [hy, Option.some_inj] at hh; exact Or.inr hh
    by_cases ha : pyIsSpace a = true
    · have hasp : a = ' ' := hg.head ha
      have hside' : pend = [] := by
        rcases hside with h | ⟨_, hh⟩
        · exact h
        · exact absurd (hh a rfl) (by rw [ha]; simp)
      subst hside'
      rw [periodAux_ws ha, List.nil_append]
      refine ih [a] hg.tail hch.tail hcn.tail (Or.inr ⟨by rw [hasp], ?_⟩)
      intro h hh
      have hne : ¬ (a = ' ' ∧ h = ' ') := (List.chain'_cons'.1 hch).1 h hh
      refine nonspace_of_ne (hg h (List.mem_cons_of_mem a (head?_mem hh))) ?_
      intro hcon
      exact hne ⟨hasp, hcon⟩
    · have haf : pyIsSpace a = false := bool_eq_false ha
      have hane : a ≠ ' ' := space_ne_of_nonspace haf
      obtain ⟨hp1, hp2, hp3⟩ := ih [] hg.tail hch.tail hcn.tail (Or.inl rfl)
      have hcons : List.Chain' no2sp (a :: periodAux [] tl) ∧
          List.Chain' commaNext2 (a :: periodAux [] tl) ∧
          List.Chain' noSpDot (a :: periodAux [] tl) := by
        refine ⟨List.chain'_cons'.2 ⟨fun y _ hcon => hane hcon.1, hp1⟩,
          List.chain'_cons'.2 ⟨?_, hp2⟩,
          List.chain'_cons'.2 ⟨fun y _ hcon => absurd hcon hane, hp3⟩⟩
        intro y hy hac
        exact hcnx y hy hac
      rcases hside with h | ⟨h, hhead⟩
      · subst h
        rw [periodAux_other haf (by simp), List.nil_append]
        exact hcons
      · subst h
        by_cases had : a = '.'
        · subst had
          rw [periodAux_dot (by simp)]
          exact ⟨List.chain'_cons'.2 ⟨fun y _ hcon => absurd hcon.1 (by decide), hp1⟩,
            List.chain'_cons'.2 ⟨fun y _ hcon => absurd hcon (by decide), hp2⟩,
            List.chain'_cons'.2 ⟨fun y _ hcon => absurd hcon (by decide), hp3⟩⟩
        · rw [periodAux_other haf (fun hcon => had hcon.1), List.singleton_append]
          refine ⟨List.chain'_cons'.2 ⟨?_, hcons.1⟩,
            List.chain'_cons'.2 ⟨?_, hcons.2.1⟩,
            List.chain'_cons'.2 ⟨?_, hcons.2.2⟩⟩
          · intro y hy hcon
            simp only [List.head?_cons, Option.mem_def, Option.some_inj] at hy
            exact hane (hy ▸ hcon.2)
          · intro y _ hcon
            exact absurd hcon (by decide)
          · intro y hy
            simp only [List.head?_cons, Option.mem_def, Option.some_inj] at hy
            intro _
            rw [← hy]
            exact had
    -- end cons

/-- Shape of the fully processed string: `swapSub` output satisfies the
clean-string pair relation. -/
theorem swapSub_out : ∀ l : List Char, GoodL l → List.Chain' no2sp l →
    List.Chain' commaNext2 l → List.Chain' noSpDot l →
    List.Chain' Rclean (swapSub l) := by
  intro l
  induction l using swapSub.induct with
  | case1 => intro _ _ _ _; simp only [swapSub]; exact List.chain'_nil
  | case2 c => intro _ _ _ _; exact List.chain'_singleton _
  | case3 a b rest hab ih =>
    intro hg h1 h2 h3
    obtain ⟨ha, hb⟩ := hab
    subst ha; subst hb
    rw [swapSub_pair]
    refine List.chain'_cons'.2 ⟨?_, ih hg.tail.tail h1.tail.tail h2.tail.tail h3.tail.tail⟩
    intro y hy
    simp only [Option.mem_def] at hy
    rcases swapSub_head rest with hh | ⟨hh1, hh2⟩
    · have hyr : rest.head? = some y := by rw [← hh, hy]
      have : y = ' ' ∨ y = '.' :=
        (List.chain'_cons'.1 (List.Chain'.tail h2)).1 y hyr rfl
      rcases this with h | h <;> subst h
      · exact ⟨fun hcon => absurd hcon (by decide), fun _ => Or.inl rfl⟩
      · exact ⟨fun hcon => absurd hcon (by decide), fun _ => Or.inr (Or.inr rfl)⟩
    · rw [hy, Option.some_inj] at hh2
      subst hh2
      exact ⟨fun hcon => absurd hcon (by decide), fun _ => Or.inr (Or.inl rfl)⟩
  | case4 a b rest hab ih =>
    intro hg h1 h2 h3
    rw [show swapSub (a :: b :: rest) = a :: swapSub (b :: rest) from by
      simp only [swapSub, if_neg hab]]
    refine List.chain'_cons'.2 ⟨?_, ih hg.tail h1.tail h2.tail h3.tail⟩
    intro y hy
    simp only [Option.mem_def] at hy
    have hR1 : no2sp a b := (List.chain'_cons.1 h1).1
    have hR2 : commaNext2 a b := (List.chain'_cons.1 h2).1
    have hR3 : noSpDot a b := (List.chain'_cons.1 h3).1
    rcases swapSub_head (b :: rest) with hh | ⟨hh1, hh2⟩
    · rw [hy, List.head?_cons, Option.some_inj] at hh
      subst hh
      constructor
      · intro hasp
        refine ⟨fun hcon => hR1 ⟨hasp, hcon⟩, fun hcon => hab ⟨hasp, hcon⟩,
          fun hcon => hR3 hasp hcon⟩
      · intro hac
        rcases hR2 hac with h | h
        · exact Or.inl h
        · exact Or.inr (Or.inr h)
    · rw [List.head?_cons, Option.some_inj] at hh1
      rw [hy, Option.some_inj] at hh2
      subst hh2
      constructor
      · intro hasp
        exact absurd hh1 (fun hcon => hR1 ⟨hasp, hcon⟩)
      · intro _
        exact Or.inr (Or.inl rfl)

theorem dropWhile_head_not {p : Char → Bool} :
    ∀ {l : List Char} {c : Char}, (l.dropWhile p).head? = some c → p c = false := by
  intro l
  induction l with
  | nil => intro c h; simp at h
  | cons a tl ih =>
    intro c h
    rw [List.dropWhile_cons] at h
    by_cases hp : p a = true
    · rw [if_pos hp] at h
      exact ih h
    · rw [if_neg hp] at h
      rw [List.head?_cons, Option.some_inj] at h
      rw [← h]
      exact bool_eq_false hp

theorem stripWS_pre (l : List Char) : stripWS l <+: l.dropWhile pyIsSpace := by
  unfold stripWS
  rw [← List.reverse_reverse (l.dropWhile pyIsSpace), List.reverse_prefix,
    List.reverse_reverse]
  exact List.dropWhile_suffix pyIsSpace

theorem stripWS_chain {R : Char → Char → Prop} {l : List Char}
    (h : List.Chain' R l) : List.Chain' R (stripWS l) :=
  List.Chain'.prefix (h.suffix (List.dropWhile_suffix pyIsSpace)) (stripWS_pre l)

theorem stripWS_head {l : List Char} {c : Char} (h : (stripWS l).head? = some c) :
    pyIsSpace c = false := by
  obtain ⟨t, ht⟩ := stripWS_pre l
  have hh : (l.dropWhile pyIsSpace).head? = some c := by
    rw [← ht, List.head?_append, h]
    rfl
  exact dropWhile_head_not hh

theorem stripWS_last {l : List Char} {c : Char} (h : (stripWS l).getLast? = some c) :
    pyIsSpace c = false := by
  unfold stripWS at h
  rw [List.getLast?_reverse] at h
  exact dropWhile_head_not h

theorem stripWS_id {l : List Char}
    (hh : ∀ c, l.head? = some c → pyIsSpace c = false)
    (hl : ∀ c, l.getLast? = some c → pyIsSpace c = false) : stripWS l = l := by
  have h1 : l.dropWhile pyIsSpace = l := by
    cases l with
    | nil => rfl
    | cons a tl => rw [List.dropWhile_cons, if_neg (by rw [hh a rfl]; simp)]
  have h2 : l.reverse.dropWhile pyIsSpace = l.reverse := by
    cases hr : l.reverse with
    | nil => rfl
    | cons a tl =>
      have ha : pyIsSpace a = false := by
        apply hl
        rw [← List.head?_reverse, hr, List.head?_cons]
      rw [List.dropWhile_cons, if_neg (by rw [ha]; simp)]
  unfold stripWS
  rw [h1, h2, List.reverse_reverse]

theorem stripWS_append_space {l : List Char} (hne : l ≠ [])
    (hh : ∀ c, l.head? = some c → pyIsSpace c = false)
    (hl : ∀ c, l.getLast? = some c → pyIsSpace c = false) :
    stripWS (l ++ [' ']) = l := by
  have h1 : (l ++ [' ']).dropWhile pyIsSpace = l ++ [' '] := by
    cases l with
    | nil => exact absurd rfl hne
    | cons a tl =>
      rw [List.cons_append, List.dropWhile_cons, if_neg (by rw [hh a rfl]; simp)]
  have h2 : l.reverse.dropWhile pyIsSpace = l.reverse := by
    cases hr : l.reverse with
    | nil => rfl
    | cons a tl =>
      have ha : pyIsSpace a = false := by
        apply hl
        rw [← List.head?_reverse, hr, List.head?_cons]
      rw [List.dropWhile_cons, if_neg (by rw [ha]; simp)]
  unfold stripWS
  rw [h1, List.reverse_append, show ([' '] : List Char).reverse = [' '] from rfl,
    List.singleton_append, List.dropWhile_cons, if_pos pyIsSpace_space, h2,
    List.reverse_reverse]

/-- NFKC is the identity on strings without the combining acute. -/
theorem nfkc_id : ∀ l : List Char, (∀ c ∈ l, c ≠ combAcute) → nfkc l = l := by
  intro l
  induction l with
  | nil => intro _; rfl
  | cons a tl ih =>
    intro h
    cases tl with
    | nil => rfl
    | cons b tl2 =>
      have hb : b ≠ combAcute := h b (List.mem_cons_of_mem a (List.mem_cons_self b tl2))
      rw [show nfkc (a :: b :: tl2) =
          if a = 'a' ∧ b = combAcute then aAcute :: nfkc tl2
          else a :: nfkc (b :: tl2) from by simp only [nfkc]]
      rw [if_neg (fun hcon => hb hcon.2),
        ih (fun c hc => h c (List.mem_cons_of_mem a hc))]

theorem removeZW_id {l : List Char} (h : ∀ c ∈ l, isZW c = false) : removeZW l = l :=
  List.filter_eq_self.2 (fun a ha => by rw [h a ha]; rfl)

theorem ctrlToSpace_id {l : List Char} (h : ∀ c ∈ l, isCtrl c = false) :
    ctrlToSpace l = l := by
  unfold ctrlToSpace
  rw [List.map_congr_left (g := id) (fun c hc => by rw [h c hc]; rfl), List.map_id]

theorem collapse_true_eq_false {l : List Char}
    (h : ∀ c, l.head? = some c → pyIsSpace c = false) :
    collapseAux true l = collapseAux false l := by
  cases l with
  | nil => rfl
  | cons a tl => rw [collapseAux_other (h a rfl), collapseAux_other (h a rfl)]

/-- `collapseWS` is the identity on strings with only single `' '`
whitespace. -/
theorem collapse_id : ∀ l : List Char, GoodL l → List.Chain' no2sp l →
    collapseWS l = l := by
  have key : ∀ l : List Char, GoodL l → List.Chain' no2sp l →
      collapseAux false l = l := by
    intro l
    induction l with
    | nil => intro _ _; rfl
    | cons a tl ih =>
      intro hg hch
      by_cases ha : pyIsSpace a = true
      · have hasp : a = ' ' := hg.head ha
        rw [collapseAux_ws ha, if_neg (by simp)]
        have hth : ∀ c, tl.head? = some c → pyIsSpace c = false := by
          intro c hc
          refine nonspace_of_ne (hg c (List.mem_cons_of_mem a (head?_mem hc))) ?_
          intro hcon
          exact (List.chain'_cons'.1 hch).1 c hc ⟨hasp, hcon⟩
        rw [collapse_true_eq_false hth, ih hg.tail hch.tail, hasp]
      · rw [collapseAux_other (bool_eq_false ha), ih hg.tail hch.tail]
  intro l hg hch
  exact key l hg hch

theorem cstep_sp_false {pend X : List Char} :
    commaAux false pend (' ' :: X) = commaAux false (pend ++ [' ']) X := by
  rw [commaAux_ws pyIsSpace_space, if_neg (by simp)]

theorem cstep_sp_true {pend X : List Char} :
    commaAux true pend (' ' :: X) = commaAux true pend X := by
  rw [commaAux_ws pyIsSpace_space, if_pos rfl]

theorem pstep_sp {pend X : List Char} :
    periodAux pend (' ' :: X) = periodAux (pend ++ [' ']) X :=
  periodAux_ws pyIsSpace_space

theorem pstep_comma {pend X : List Char} :
    periodAux pend (',' :: X) = pend ++ (',' :: periodAux [] X) :=
  periodAux_other (by decide) (fun hcon => absurd hcon.1 (by decide))

theorem pstep_dot0 {X : List Char} :
    periodAux [] ('.' :: X) = '.' :: periodAux [] X := by
  rw [periodAux_other (by decide) (by simp), List.nil_append]

/-- The heart of the idempotence argument: on a clean string `t`, the
comma, period and space-comma substitutions of a second `clean_text` pass
cancel each other, leaving only a possible extra space after a trailing
comma (which the final `strip` removes). -/
theorem G_eq : ∀ (N : ℕ) (t : List Char), t.length ≤ N →
    List.Chain' Rclean t → GoodL t →
    swapSub (periodSub (commaSub t)) =
      t ++ (if t.getLast? = some ',' then [' '] else []) := by
  intro N
  induction N with
  | zero =>
    intro t hlen _ _
    rw [List.length_eq_zero.1 (Nat.le_zero.1 hlen)]
    decide
  | succ N ihN =>
    intro t hlen hch hg
    cases t with
    | nil => decide
    | cons c r =>
      by_cases hcw : pyIsSpace c = true
      · -- case C: leading space
        have hcsp : c = ' ' := hg.head hcw
        subst hcsp
        cases r with
        | nil => decide
        | cons d r2 =>
          have hRd : Rclean ' ' d := (List.chain'_cons.1 hch).1
          obtain ⟨hd1, hd2, hd3⟩ := hRd.1 rfl
          have hdf : pyIsSpace d = false :=
            nonspace_of_ne (hg d (by simp)) hd1
          have h1 : commaSub (' ' :: d :: r2) = ' ' :: d :: commaSub r2 := by
            unfold commaSub
            rw [cstep_sp_false, List.nil_append, commaAux_other hdf hd2,
              List.singleton_append]
          have h2 : periodSub (' ' :: d :: commaSub r2) =
              ' ' :: d :: periodAux [] (commaSub r2) := by
            unfold periodSub
            rw [pstep_sp, List.nil_append,
              periodAux_other hdf (fun hcon => hd3 hcon.1), List.singleton_append]
          have h3 : commaSub (d :: r2) = d :: commaSub r2 := by
            unfold commaSub
            rw [commaAux_other hdf hd2, List.nil_append]
          have h4 : periodSub (d :: commaSub r2) = d :: periodAux [] (commaSub r2) := by
            unfold periodSub
            rw [periodAux_other hdf (fun hcon => hd3 hcon.1), List.nil_append]
          rw [h1, h2]
          rw [swapSub_sp (by rw [List.head?_cons]; intro hcon; exact hd2 (Option.some_inj.1 hcon)),
            swapSub_cons hd1]
          have hrec := ihN (d :: r2)
            (by simp only [List.length_cons] at hlen ⊢; omega) hch.tail hg.tail
          rw [h3, h4, swapSub_cons hd1] at hrec
          rw [show (' ' :: d :: r2).getLast? = (d :: r2).getLast? from
            List.getLast?_cons_cons, List.cons_append, hrec]
      · by_cases hcc : c = ','
        · -- case D: leading comma
          subst hcc
          have hcf : pyIsSpace ',' = false := by decide
          cases r with
          | nil => decide
          | cons d r2 =>
            have hRd : Rclean ',' d := (List.chain'_cons.1 hch).1
            have hdclass : d = ' ' ∨ d = ',' ∨ d = '.' := hRd.2 rfl
            rcases hdclass with hdsp | hdcm | hddt
            · -- D1: ", …"
              subst hdsp
              cases r2 with
              | nil => decide
              | cons e r3 =>
                have hRe : Rclean ' ' e := (List.chain'_cons.1 hch.tail).1
                obtain ⟨he1, he2, he3⟩ := hRe.1 rfl
                have hef : pyIsSpace e = false :=
                  nonspace_of_ne (hg e (by simp)) he1
                have h1 : commaSub (',' :: ' ' :: e :: r3) =
                    ',' :: ' ' :: e :: commaSub r3 := by
                  unfold commaSub
                  rw [commaAux_comma, cstep_sp_true, commaAux_other hef he2,
                    List.nil_append]
                have h2 : periodSub (',' :: ' ' :: e :: commaSub r3) =
                    ',' :: ' ' :: e :: periodAux [] (commaSub r3) := by
                  unfold periodSub
                  rw [pstep_comma, List.nil_append, pstep_sp, List.nil_append,
                    periodAux_other hef (fun hcon => he3 hcon.1), List.singleton_append]
                have h3 : commaSub (e :: r3) = e :: commaSub r3 := by
                  unfold commaSub
                  rw [commaAux_other hef he2, List.nil_append]
                have h4 : periodSub (e :: commaSub r3) =
                    e :: periodAux [] (commaSub r3) := by
                  unfold periodSub
                  rw [periodAux_other hef (fun hcon => he3 hcon.1), List.nil_append]
                have hsp2 : (e :: periodAux [] (commaSub r3)).head? ≠ some ',' := by
                  rw [List.head?_cons]
                  intro hcon
                  exact he2 (Option.some_inj.1 hcon)
                rw [h1, h2, swapSub_cons (by decide), swapSub_sp hsp2, swapSub_cons he1]
                have hrec := ihN (e :: r3)
                  (by simp only [List.length_cons] at hlen ⊢; omega)
                  hch.tail.tail hg.tail.tail
                rw [h3, h4, swapSub_cons he1] at hrec
                rw [show (',' :: ' ' :: e :: r3).getLast? = (e :: r3).getLast? from by
                    rw [List.getLast?_cons_cons, List.getLast?_cons_cons],
                  List.cons_append, List.cons_append, hrec]
            · -- D2: ",,…"
              subst hdcm
              have h1 : commaSub (',' :: ',' :: r2) = ',' :: ' ' :: commaSub (',' :: r2) := by
                unfold commaSub
                rw [commaAux_comma, commaAux_comma, commaAux_comma]
              have h2 : periodSub (',' :: ' ' :: commaSub (',' :: r2)) =
                  ',' :: ' ' :: periodSub (commaSub (',' :: r2)) := by
                have hcs : commaSub (',' :: r2) =
                    ',' :: ' ' :: commaAux true [] r2 := by
                  unfold commaSub; rw [commaAux_comma]
                unfold periodSub
                rw [hcs, pstep_comma, List.nil_append, pstep_sp, List.nil_append,
                  pstep_comma, pstep_comma, List.nil_append, List.singleton_append]
              rw [h1, h2]
              have hheadW : (periodSub (commaSub (',' :: r2))).head? = some ',' := by
                rw [show commaSub (',' :: r2) = ',' :: ' ' :: commaAux true [] r2 from by
                  unfold commaSub; rw [commaAux_comma]]
                unfold periodSub
                rw [pstep_comma, List.nil_append, List.head?_cons]
              rw [swapSub_cons (by decide)]
              obtain ⟨W2, hW2⟩ : ∃ W2, periodSub (commaSub (',' :: r2)) = ',' :: W2 := by
                cases hW : periodSub (commaSub (',' :: r2)) with
                | nil => rw [hW] at hheadW; simp at hheadW
                | cons w ws =>
                  rw [hW, List.head?_cons, Option.some_inj] at hheadW
                  exact ⟨ws, by rw [hheadW]⟩
              rw [hW2, swapSub_pair]
              have hrec := ihN (',' :: r2)
                (by simp only [List.length_cons] at hlen ⊢; omega)
                hch.tail hg.tail
              rw [hW2, swapSub_cons (by decide)] at hrec
              rw [show (',' :: ',' :: r2).getLast? = (',' :: r2).getLast? from
                List.getLast?_cons_cons, List.cons_append]
              rw [show (',' : Char) :: ',' :: swapSub W2 =
                ',' :: (',' :: swapSub W2) from rfl, hrec]
            · -- D3: ",.…"
              subst hddt
              have hdotf : pyIsSpace '.' = false := by decide
              have h1 : commaSub (',' :: '.' :: r2) = ',' :: ' ' :: '.' :: commaSub r2 := by
                unfold commaSub
                rw [commaAux_comma, commaAux_other hdotf (by decide), List.nil_append]
              have h2 : periodSub (',' :: ' ' :: '.' :: commaSub r2) =
                  ',' :: '.' :: periodAux [] (commaSub r2) := by
                unfold periodSub
                rw [pstep_comma, List.nil_append, pstep_sp, List.nil_append,
                  periodAux_dot (by simp)]
              have h3 : commaSub ('.' :: r2) = '.' :: commaSub r2 := by
                unfold commaSub
                rw [commaAux_other hdotf (by decide), List.nil_append]
              have h4 : periodSub ('.' :: commaSub r2) =
                  '.' :: periodAux [] (commaSub r2) := by
                unfold periodSub
                rw [pstep_dot0]
              rw [h1, h2, swapSub_cons (by decide), swapSub_cons (by decide)]
              have hrec := ihN ('.' :: r2)
                (by simp only [List.length_cons] at hlen ⊢; omega)
                hch.tail hg.tail
              rw [h3, h4, swapSub_cons (by decide)] at hrec
              rw [show (',' :: '.' :: r2).getLast? = ('.' :: r2).getLast? from
                List.getLast?_cons_cons, List.cons_append]
              rw [show (',' : Char) :: '.' :: swapSub (periodAux [] (commaSub r2)) =
                ',' :: ('.' :: swapSub (periodAux [] (commaSub r2))) from rfl, hrec]
        · -- case B: ordinary head (anything except space and comma)
          have hcf : pyIsSpace c = false := bool_eq_false hcw
          have hcne : c ≠ ' ' := space_ne_of_nonspace hcf
          have h1 : commaSub (c :: r) = c :: commaSub r := by
            unfold commaSub
            rw [commaAux_other hcf hcc, List.nil_append]
          have h2 : periodSub (c :: commaSub r) = c :: periodAux [] (commaSub r) := by
            unfold periodSub
            rw [periodAux_other hcf (by simp), List.nil_append]
          rw [h1, h2, swapSub_cons hcne]
          cases r with
          | nil =>
            rw [show commaSub [] = [] from rfl, show periodAux [] ([] : List Char) = []
              from rfl, show swapSub [] = [] from rfl]
            rw [show ([c]).getLast? = some c from rfl, if_neg (by simp [hcc])]
            rfl
          | cons r0 rs =>
            have hrec := ihN (r0 :: rs)
              (by simp only [List.length_cons] at hlen ⊢; omega) hch.tail hg.tail
            show c :: swapSub (periodSub (commaSub (r0 :: rs))) = _
            rw [hrec, show (c :: r0 :: rs).getLast? = (r0 :: rs).getLast? from
              List.getLast?_cons_cons, List.cons_append]
            rfl

/-- ASCII non-control character lists. -/
def AsciiNC (l : List Char) : Prop := ∀ c ∈ l, c.toNat < 128 ∧ isCtrl c = false

theorem AsciiNC.good {l : List Char} (h : AsciiNC l) : GoodL l :=
  fun c hc hs => ascii_space (h c hc).1 (h c hc).2 hs

theorem asciiNC_space : (' ' : Char).toNat < 128 ∧ isCtrl ' ' = false := by decide

theorem asciiNC_comma : (',' : Char).toNat < 128 ∧ isCtrl ',' = false := by decide

/-- The cleaned form of an ASCII string is a clean string: its pairs
satisfy `Rclean`, its only whitespace is `' '`, it neither starts nor ends
with a space, and its characters are ASCII non-control characters. -/
theorem clean_text_props (l : List Char) (hA : ∀ c ∈ l, c.toNat < 128) :
    List.Chain' Rclean (clean_text l) ∧ GoodL (clean_text l) ∧
    (∀ c, (clean_text l).head? = some c → pyIsSpace c = false) ∧
    (∀ c, (clean_text l).getLast? = some c → pyIsSpace c = false) ∧
    AsciiNC (clean_text l) := by
  have hnfkc : nfkc l = l := by
    refine nfkc_id l ?_
    intro c hc hcon
    have := hA c hc
    rw [hcon] at this
    exact absurd this (by decide)
  have hzw : removeZW l = l := by
    refine removeZW_id ?_
    intro c hc
    have := hA c hc
    unfold isZW
    rw [decide_eq_false_iff_not]
    omega
  have hA1 : AsciiNC (ctrlToSpace l) := by
    intro c hc
    unfold ctrlToSpace at hc
    obtain ⟨a, ha, rfl⟩ := List.mem_map.1 hc
    by_cases hctrl : isCtrl a = true
    · rw [if_pos hctrl]
      exact asciiNC_space
    · rw [if_neg hctrl]
      exact ⟨hA a ha, bool_eq_false hctrl⟩
  have hA2 : AsciiNC (collapseWS (ctrlToSpace l)) := by
    intro c hc
    rcases mem_collapseAux _ false hc with h | h
    · rw [h]; exact asciiNC_space
    · exact hA1 c h
  have hA3 : AsciiNC (commaSub (collapseWS (ctrlToSpace l))) := by
    intro c hc
    rcases mem_commaAux _ false [] hc with h | h | h | h
    · rw [h]; exact asciiNC_space
    · rw [h]; exact asciiNC_comma
    · simp at h
    · exact hA2 c h
  have hA4 : AsciiNC (periodSub (commaSub (collapseWS (ctrlToSpace l)))) := by
    intro c hc
    rcases mem_periodAux _ [] hc with h | h
    · simp at h
    · exact hA3 c h
  have hA5 : AsciiNC (swapSub (periodSub (commaSub (collapseWS (ctrlToSpace l))))) := by
    intro c hc
    rcases mem_swapSub _ hc with h | h
    · rw [h]; exact asciiNC_comma
    · exact hA4 c h
  have hch1 : List.Chain' no2sp (collapseWS (ctrlToSpace l)) :=
    (collapseAux_chain (ctrlToSpace l) false).1
  obtain ⟨hch2a, hch2b⟩ :=
    commaAux_out (collapseWS (ctrlToSpace l)) false [] hA2.good hch1 (Or.inl rfl)
  obtain ⟨hch3a, hch3b, hch3c⟩ :=
    periodAux_out (commaSub (collapseWS (ctrlToSpace l))) [] hA3.good hch2a hch2b
      (Or.inl rfl)
  have hch4 : List.Chain' Rclean
      (swapSub (periodSub (commaSub (collapseWS (ctrlToSpace l))))) :=
    swapSub_out _ hA4.good hch3a hch3b hch3c
  have hcl : clean_text l =
      stripWS (swapSub (periodSub (commaSub (collapseWS (ctrlToSpace l))))) := by
    unfold clean_text
    rw [hnfkc, hzw]
  rw [hcl]
  refine ⟨stripWS_chain hch4, ?_, ?_, ?_, ?_⟩
  · intro c hc
    exact (hA5 c (mem_stripWS hc)).1 |> fun h1 =>
      ascii_space h1 (hA5 c (mem_stripWS hc)).2
  · intro c hc
    exact stripWS_head hc
  · intro c hc
    exact stripWS_last hc
  · intro c hc
    exact hA5 c (mem_stripWS hc)

/-! ### Quiz save state and streaks

`SaveState` of `src/app.py`.  `last_played` is an ISO date string in the
source; dates are modelled by their day ordinal in `ℤ` (ISO string ↔
ordinal is a bijection, and `(playing_date - last).days` is the difference
of ordinals). -/

/-- An entry of `save.history` — exactly the keys the recording block
appends. -/
structure DayEntry where
  date : ℤ
  score : ℤ
  time : ℤ
  correct : ℤ
  total : ℤ
  finished_by_progress : Bool
  categories : List String
deriving DecidableEq, Repr

/-- A `save.category_stats` value: `{"correct": _, "attempted": _}`. -/
structure CatStat where
  correct : ℤ
  attempted : ℤ
deriving DecidableEq, Repr

/-- `SaveState` dataclass with its field defaults. -/
structure SaveState where
  display_name : String := "You"
  total_points : ℤ := 0
  streak : ℤ := 0
  last_played : Option ℤ := none
  streak_freezes : ℤ := 3
  history : List DayEntry := []
  category_stats : List (String × CatStat) := []
  badges : List (String × Bool) := []
  room_code : Option String := none
deriving DecidableEq, Repr

/-- `update_streak_with_freeze`: no prior date → streak 1; delta 0 → early
return (nothing changes); delta 1 → streak += 1; delta > 1 → consume a
freeze and increment if any freeze remains, else reset to 1; in every
branch except the early return, `last_played` is set to the playing date. -/
def update_streak_with_freeze (save : SaveState) (playing_date : ℤ) : SaveState :=
  match save.last_played with
  | none => { save with streak := 1, last_played := some playing_date }
  | some last =>
    let delta := playing_date - last
    if delta = 0 then save
    else if delta = 1 then
      { save with streak := save.streak + 1, last_played := some playing_date }
    else if 1 < delta then
      if 0 < save.streak_freezes then
        { save with
          streak_freezes := save.streak_freezes - 1
          streak := save.streak + 1
          last_played := some playing_date }
      else { save with streak := 1, last_played := some playing_date }
    else { save with last_played := some playing_date }

/-! ### Quiz save codec

`SaveState.to_json` is `json.dumps(asdict(self))`; `from_json` is
`SaveState(**json.loads(s))`.  The parsed JSON document is modelled by a
record of `Option` fields; `SaveState(**d)` fills keys absent from `d` with
the dataclass defaults (`**` of the full `asdict` output supplies every
key). -/

/-- Parsed quiz save document. -/
structure QuizSaveDoc where
  display_name : Option String := none
  total_points : Option ℤ := none
  streak : Option ℤ := none
  last_played : Option (Option ℤ) := none
  streak_freezes : Option ℤ := none
  history : Option (List DayEntry) := none
  category_stats : Option (List (String × CatStat)) := none
  badges : Option (List (String × Bool)) := none
  room_code : Option (Option String) := none
deriving DecidableEq, Repr

/-- `to_json`: `asdict` writes every field. -/
def SaveState.to_json (s : SaveState) : QuizSaveDoc :=
  { display_name := some s.display_name
    total_points := some s.total_points
    streak := some s.streak
    last_played := some s.last_played
    streak_freezes := some s.streak_freezes
    history := some s.history
    category_stats := some s.category_stats
    badges := some s.badges
    room_code := some s.room_code }

/-- `from_json`: `SaveState(**d)` with dataclass defaults for absent keys. -/
def SaveState.from_json (d : QuizSaveDoc) : SaveState :=
  { display_name := d.display_name.getD "You"
    total_points := d.total_points.getD 0
    streak := d.streak.getD 0
    last_played := d.last_played.getD none
    streak_freezes := d.streak_freezes.getD 3
    history := d.history.getD []
    category_stats := d.category_stats.getD []
    badges := d.badges.getD []
    room_code := d.room_code.getD none }

/-! ## Helper lemmas for the session engine -/

/-- Cumulative progress numerator after `k` consecutive correct answers:
each correct answer at streak `j` adds `boostOf j` question-widths. -/
def cumB : ℕ → ℚ
  | 0 => 0
  | k + 1 => cumB k + boostOf (k + 1)

theorem cumB_ge (n : ℕ) (hn : 1 ≤ n) : (n : ℚ) ≤ cumB n := by
  induction n with
  | zero => exact absurd hn (by omega)
  | succ k ih =>
    by_cases hk0 : k = 0
    · subst hk0; norm_num [cumB, boostOf]
    by_cases hk1 : k = 1
    · subst hk1; norm_num [cumB, boostOf]
    by_cases hk2 : k = 2
    · subst hk2; norm_num [cumB, boostOf]
    have hb : boostOf (k + 1) = 2 := by
      unfold boostOf
      rw [if_neg (by omega), if_neg (by omega), if_neg (by omega)]
    have hik := ih (by omega)
    rw [cumB, hb]
    push_cast
    linarith

theorem countCorrect_replicate (k : ℕ) :
    countCorrect (List.replicate k (true, false)) = k := by
  induction k with
  | zero => rfl
  | succ m ih =>
    rw [List.replicate_succ]
    simp only [countCorrect, List.filter] at ih ⊢
    rw [List.length_cons, ih]

/-- Invariant of an all-correct no-hint run of a session with `n` questions:
either the session is still open, in which case every counter equals the
number of answers so far and the progress bar is strictly below 1, or it has
completed via progress-finish with the early-finish score. -/
def PerfectInv (n : ℕ) (s : PlaySession) : Prop :=
  s.numQuestions = n ∧ s.used_hint = false ∧
  ((s.completed = false ∧ s.answered = false ∧
      s.idx = s.answered_count ∧ s.answered_count < n ∧
      s.correct_streak = s.answered_count ∧
      s.results = List.replicate s.answered_count (true, false) ∧
      s.score_today = 10 * s.answered_count ∧
      s.progress_visual = cumB s.answered_count / n ∧ s.progress_visual < 1) ∨
   (s.completed = true ∧ s.finished_by_progress = true ∧
      s.answered_count ≤ n ∧
      s.results = List.replicate s.answered_count (true, false) ∧
      s.score_today = 10 * s.answered_count + 6 * ((n : ℤ) - s.answered_count)))

theorem perfect_step (n : ℕ) (hn : 1 ≤ n) (s : PlaySession) (h : PerfectInv n s) :
    PerfectInv n (stepAnswer s true) ∧
    ((stepAnswer s true).completed = true ∨
      (stepAnswer s true).answered_count = s.answered_count + 1) := by
  obtain ⟨nq, idx, sc, res, ans, uh, comp, cs, ac, pv, fbp⟩ := s
  obtain ⟨hq, hh, hopen | hdone⟩ := h
  · obtain ⟨hc, ha, hidx, hlt, hcs, hres, hsc, hpv, hpv1⟩ := hopen
    simp only at hq hh hc ha hidx hlt hcs hres hsc hpv hpv1
    subst nq uh comp ans idx cs res sc pv
    have hnq : (0 : ℚ) < n := by exact_mod_cast hn
    have hprog : cumB ac / n + 1 / (n : ℚ) * boostOf (ac + 1) = cumB (ac + 1) / n := by
      rw [cumB]; field_simp
    have hsub1 : submitStep true ⟨n, ac, 10 * ac, List.replicate ac (true, false),
        false, false, false, ac, ac, cumB ac / n, fbp⟩ =
        finishByProgress ⟨n, ac, 10 * ac + POINTS_CORRECT,
          List.replicate ac (true, false) ++ [(true, false)], true, false, false,
          ac + 1, ac + 1, min 1 (cumB ac / n + 1 / (n : ℚ) * boostOf (ac + 1)), fbp⟩ := rfl
    have hsub : submitStep true ⟨n, ac, 10 * ac, List.replicate ac (true, false),
        false, false, false, ac, ac, cumB ac / n, fbp⟩ =
        finishByProgress ⟨n, ac, 10 * ac + POINTS_CORRECT,
          List.replicate (ac + 1) (true, false), true, false, false,
          ac + 1, ac + 1, min 1 (cumB (ac + 1) / n), fbp⟩ := by
      rw [hsub1, ← List.replicate_succ', hprog]
    by_cases hfin : 1 ≤ cumB (ac + 1) / n
    · have hmin : min 1 (cumB (ac + 1) / n) = 1 := min_eq_left hfin
      have hfire : finishByProgress ⟨n, ac, 10 * ac + POINTS_CORRECT,
          List.replicate (ac + 1) (true, false), true, false, false, ac + 1, ac + 1,
          min 1 (cumB (ac + 1) / n), fbp⟩ =
          ⟨n, ac, 10 * ac + POINTS_CORRECT + (n - (ac + 1) : ℕ) * PROGRESS_FINISH_PER_Q,
            List.replicate (ac + 1) (true, false), true, false, true, ac + 1, ac + 1,
            min 1 (cumB (ac + 1) / n), true⟩ := by
        unfold finishByProgress
        rw [if_pos ⟨by simp, by rw [hmin]⟩]
      have hstep : stepAnswer ⟨n, ac, 10 * ac, List.replicate ac (true, false),
          false, false, false, ac, ac, cumB ac / n, fbp⟩ true =
          ⟨n, ac, 10 * ac + POINTS_CORRECT + (n - (ac + 1) : ℕ) * PROGRESS_FINISH_PER_Q,
            List.replicate (ac + 1) (true, false), true, false, true, ac + 1, ac + 1,
            min 1 (cumB (ac + 1) / n), true⟩ := by
        unfold stepAnswer
        rw [if_neg (by simp), hsub, hfire, if_pos rfl]
      rw [hstep]
      refine ⟨⟨rfl, rfl, Or.inr ⟨rfl, rfl, show ac + 1 ≤ n by omega, rfl, ?_⟩⟩, Or.inl rfl⟩
      simp only [POINTS_CORRECT, PROGRESS_FINISH_PER_Q]
      push_cast [Nat.cast_sub (by omega : ac + 1 ≤ n)]
      ring
    · have hmin : min 1 (cumB (ac + 1) / n) = cumB (ac + 1) / n :=
        min_eq_right (le_of_lt (lt_of_not_le hfin))
      have hskip : finishByProgress ⟨n, ac, 10 * ac + POINTS_CORRECT,
          List.replicate (ac + 1) (true, false), true, false, false, ac + 1, ac + 1,
          min 1 (cumB (ac + 1) / n), fbp⟩ =
          ⟨n, ac, 10 * ac + POINTS_CORRECT,
            List.replicate (ac + 1) (true, false), true, false, false, ac + 1, ac + 1,
            min 1 (cumB (ac + 1) / n), fbp⟩ := by
        unfold finishByProgress
        rw [if_neg (by rw [hmin]; intro hcon; exact hfin hcon.2)]
      have hlt2 : ac + 1 < n := by
        rcases Nat.lt_or_ge (ac + 1) n with h2 | h2
        · exact h2
        · exfalso
          have hacn : ac + 1 = n := by omega
          apply hfin
          rw [hacn, one_le_div hnq]
          exact cumB_ge n hn
      have hnext : nextStep ⟨n, ac, 10 * ac + POINTS_CORRECT,
          List.replicate (ac + 1) (true, false), true, false, false, ac + 1, ac + 1,
          min 1 (cumB (ac + 1) / n), fbp⟩ =
          ⟨n, ac + 1, 10 * ac + POINTS_CORRECT,
            List.replicate (ac + 1) (true, false), false, false, false, ac + 1, ac + 1,
            min 1 (cumB (ac + 1) / n), fbp⟩ := by
        unfold nextStep
        rw [if_pos ⟨rfl, by simp⟩, if_neg (show ¬ n ≤ ac + 1 by omega)]
      have hstep : stepAnswer ⟨n, ac, 10 * ac, List.replicate ac (true, false),
          false, false, false, ac, ac, cumB ac / n, fbp⟩ true =
          ⟨n, ac + 1, 10 * ac + POINTS_CORRECT,
            List.replicate (ac + 1) (true, false), false, false, false, ac + 1, ac + 1,
            min 1 (cumB (ac + 1) / n), fbp⟩ := by
        unfold stepAnswer
        rw [if_neg (by simp), hsub, hskip, if_neg (by simp), hnext]
      rw [hstep]
      refine ⟨⟨rfl, rfl, Or.inl ⟨rfl, rfl, rfl, hlt2, rfl, rfl, ?_, ?_, ?_⟩⟩, Or.inr rfl⟩
      · simp only [POINTS_CORRECT]; push_cast; ring
      · simp only [hmin]
      · simp only [hmin]; exact lt_of_not_le hfin
  · have hstep : stepAnswer ⟨nq, idx, sc, res, ans, uh, comp, cs, ac, pv, fbp⟩ true =
        ⟨nq, idx, sc, res, ans, uh, comp, cs, ac, pv, fbp⟩ := by
      unfold stepAnswer; rw [if_pos hdone.1]
    rw [hstep]
    exact ⟨⟨hq, hh, Or.inr hdone⟩, Or.inl hdone.1⟩

theorem perfect_run (n : ℕ) (hn : 1 ≤ n) (m : ℕ) :
    ∀ (j : ℕ) (s : PlaySession), PerfectInv n s →
      (s.completed = true ∨ s.answered_count = j) →
      PerfectInv n (List.foldl stepAnswer s (List.replicate m true)) ∧
      ((List.foldl stepAnswer s (List.replicate m true)).completed = true ∨
        (List.foldl stepAnswer s (List.replicate m true)).answered_count = j + m) := by
  induction m with
  | zero => intro j s h hj; exact ⟨h, by simpa using hj⟩
  | succ k ih =>
    intro j s h hj
    rw [List.replicate_succ, List.foldl_cons]
    obtain ⟨h1, h2⟩ := perfect_step n hn s h
    have hcount : (stepAnswer s true).completed = true ∨
        (stepAnswer s true).answered_count = j + 1 := by
      rcases h2 with h2 | h2
      · exact Or.inl h2
      · rcases hj with hj | hj
        · left
          have : stepAnswer s true = s := by unfold stepAnswer; rw [if_pos hj]
          rw [this]; exact hj
        · right; omega
    have := ih (j + 1) (stepAnswer s true) h1 hcount
    rw [show j + (k + 1) = (j + 1) + k by omega]
    exact this

theorem perfect_playList (n : ℕ) (hn : 1 ≤ n) :
    PerfectInv n (playList n (List.replicate n true)) ∧
    (playList n (List.replicate n true)).completed = true := by
  have hinit : PerfectInv n (initSession n) := by
    refine ⟨rfl, rfl, Or.inl ⟨rfl, rfl, rfl, show (0 : ℕ) < n by omega, rfl, rfl,
      show (0 : ℤ) = 10 * ((0 : ℕ) : ℤ) by norm_num,
      show (0 : ℚ) = cumB 0 / n by simp [cumB],
      show (0 : ℚ) < 1 by norm_num⟩⟩
  obtain ⟨hinv, hcount⟩ :=
    perfect_run n hn n 0 (initSession n) hinit (Or.inr rfl)
  refine ⟨hinv, ?_⟩
  rcases hinv.2.2 with hopen | hdone
  · exfalso
    rcases hcount with hc | hc
    · rw [hopen.1] at hc; exact Bool.false_ne_true hc
    · have hlt := hopen.2.2.2.1
      omega
  · exact hdone.1

/-! ## Further helper definitions for the claims -/

theorem round2_zero : round2 0 = 0 := by norm_num [round2, pyRound]

/-- A player state with a small debt and the minimum-payment choice. -/
def stateDebt10 : PlayerState := { debt := 10, choices := [("credit_card", "min_pay")] }

/-- A player state with a debt and the pay-in-full choice. -/
def statePayFull : PlayerState := { debt := 50, choices := [("credit_card", "pay_full")] }

/-- The empty MoneyQuest save document: every field missing. -/
def emptyMQSaveDoc : MQSaveDoc := {}

/-- The wants/savings funding order described by the specification: wants
first, capped at its planned share and at the whole remaining pool, then
savings capped at its planned share and at what remains after wants. -/
def wants_savings_claimOrder (net wp sp f : ℚ) : ℚ × ℚ :=
  let remaining := max 0 (net - f)
  let wants := min (net * wp) remaining
  let savings := min (net * sp) (remaining - wants)
  (wants, savings)

/-- An open session mid-day whose progress bar has just reached 1. -/
def sessionC8 : PlaySession :=
  { numQuestions := 5, idx := 3, score_today := 30,
    results := [(true, false), (true, false), (true, false)],
    answered := true, used_hint := false, completed := false,
    correct_streak := 3, answered_count := 3, progress_visual := 1,
    finished_by_progress := false }

/-- A session completed by progress-finish with every answered question
correct. -/
def sessionC8done : PlaySession :=
  { sessionC8 with completed := true, finished_by_progress := true }

/-! ## Claims -/

/-- Claim C1, counterexample: an all-correct, no-hint run of a 1-question
session (and likewise a 2-question session) completes via progress-finish
and records a day score of 10×N, not 10×N + 20 — the boosted progress bar
reaches 1.0 at the final correct answer, so the perfect-day-bonus path is
never taken. -/
theorem C1_counterexample :
    (playList 1 [true]).finished_by_progress = true ∧
    recordedScore (playList 1 [true]) = 10 ∧ ((10 : ℤ) ≠ 10 * 1 + 20) ∧
    (playList 2 [true, true]).finished_by_progress = true ∧
    recordedScore (playList 2 [true, true]) = 20 ∧ ((20 : ℤ) ≠ 10 * 2 + 20) := by
  refine ⟨?_, ?_, ?_, ?_, ?_, ?_⟩ <;>
    norm_num [playList, stepAnswer, submitStep, finishByProgress, nextStep, initSession,
      boostOf, recordedScore, countCorrect, POINTS_CORRECT, PROGRESS_FINISH_PER_Q,
      POINTS_PERFECT_BONUS, List.foldl]

/-- Claim C1, amended: for every session with `N ≥ 1` questions, an
all-correct no-hint run always completes via progress-finish (so the
hypothesis "the session does not complete via progress-finish" is never
satisfiable for such a run); the recorded day score is
`10·answered + 6·(N − answered)` — strictly less than `10·N + 20` — and the
`+20` perfect-day bonus and the `perfect_day` badge are never awarded. -/
theorem C1_theorem (n : ℕ) (hn : 1 ≤ n) :
    (playList n (List.replicate n true)).completed = true ∧
    (playList n (List.replicate n true)).finished_by_progress = true ∧
    (playList n (List.replicate n true)).answered_count ≤ n ∧
    recordedScore (playList n (List.replicate n true)) =
      10 * ((playList n (List.replicate n true)).answered_count : ℤ) +
      6 * ((n : ℤ) - ((playList n (List.replicate n true)).answered_count : ℤ)) ∧
    recordedScore (playList n (List.replicate n true)) < 10 * (n : ℤ) + 20 ∧
    perfectBadgeAwarded (playList n (List.replicate n true)) = false := by
  obtain ⟨hinv, hcomp⟩ := perfect_playList n hn
  rcases hinv.2.2 with hopen | hdone
  · rw [hopen.1] at hcomp; exact absurd hcomp (by simp)
  obtain ⟨hc, hfin, hle, hres, hscore⟩ := hdone
  have hrec : recordedScore (playList n (List.replicate n true)) =
      (playList n (List.replicate n true)).score_today := by
    unfold recordedScore
    rw [hfin]; simp
  have hlez : ((playList n (List.replicate n true)).answered_count : ℤ) ≤ n := by
    exact_mod_cast hle
  refine ⟨hcomp, hfin, hle, ?_, ?_, ?_⟩
  · rw [hrec, hscore]
  · rw [hrec, hscore]; linarith
  · unfold perfectBadgeAwarded
    rw [hfin]; simp

/-- Claim C1, witness: the amended statement at N = 4 (the run answers 3
questions, progress-finishes, and records 10·3 + 6·1 = 36 points). -/
theorem C1_witness :
    (playList 4 (List.replicate 4 true)).completed = true ∧
    (playList 4 (List.replicate 4 true)).finished_by_progress = true ∧
    (playList 4 (List.replicate 4 true)).answered_count ≤ 4 ∧
    recordedScore (playList 4 (List.replicate 4 true)) =
      10 * ((playList 4 (List.replicate 4 true)).answered_count : ℤ) +
      6 * ((4 : ℤ) - ((playList 4 (List.replicate 4 true)).answered_count : ℤ)) ∧
    recordedScore (playList 4 (List.replicate 4 true)) < 10 * (4 : ℤ) + 20 ∧
    perfectBadgeAwarded (playList 4 (List.replicate 4 true)) = false :=
  C1_theorem 4 (by norm_num)

/-- Claim C2, counterexample: at netIncome = 100, budget 50/30/20 and zero
fixed needs (non-negative inputs with fixedNeedsCost ≤ netIncome), the four
outputs of `apply_budget` are (50, 30, 20, 50), whose sum 150 differs from
the net income 100 by far more than any rounding error: the planned needs
share is both counted in `needs_spend` and left inside `leftover`. -/
theorem C2_counterexample :
    apply_budget 100 (1/2) (3/10) (1/5) 0 = (50, 30, 20, 50) ∧
    ¬ |(50 : ℚ) + 30 + 20 + 50 - 100| ≤ 1/50 := by
  constructor
  · simp only [apply_budget, min_def, max_def]
    norm_num [round2, pyRound]
  · norm_num

/-- Claim C2, amended: for non-negative inputs with fixedNeedsCost ≤
netIncome all four outputs of `apply_budget` are ≥ 0, and the sum of the
four outputs equals `netIncome + max 0 (netIncome·needsPct −
fixedNeedsCost)` up to rounding (within 4 half-cents); it equals `netIncome`
itself only when the planned needs share does not exceed the fixed needs
cost. -/
theorem C2_theorem (net np wp sp f : ℚ) (hnet : 0 ≤ net) (hnp : 0 ≤ np)
    (hwp : 0 ≤ wp) (hsp : 0 ≤ sp) (hf : 0 ≤ f) (hfn : f ≤ net) :
    0 ≤ (apply_budget net np wp sp f).1 ∧
    0 ≤ (apply_budget net np wp sp f).2.1 ∧
    0 ≤ (apply_budget net np wp sp f).2.2.1 ∧
    0 ≤ (apply_budget net np wp sp f).2.2.2 ∧
    |(apply_budget net np wp sp f).1 + (apply_budget net np wp sp f).2.1 +
        (apply_budget net np wp sp f).2.2.1 + (apply_budget net np wp sp f).2.2.2 -
      (net + max 0 (net * np - f))| ≤ 1/50 := by
  have hab : apply_budget net np wp sp f =
      (round2 (f + max 0 (net * np - f)),
       round2 (max 0 (min (net * wp) (max 0 (net - f) - net * sp))),
       round2 (max 0 (min (net * sp)
         (max 0 (net - f) - max 0 (min (net * wp) (max 0 (net - f) - net * sp))))),
       round2 (max 0 (max 0 (net - f) - max 0 (min (net * wp) (max 0 (net - f) - net * sp)) -
         max 0 (min (net * sp)
           (max 0 (net - f) - max 0 (min (net * wp) (max 0 (net - f) - net * sp))))))) := rfl
  rw [hab]
  dsimp only
  set rem := max 0 (net - f) with hrem
  have hrem' : rem = net - f := max_eq_right (by linarith)
  set W := max 0 (min (net * wp) (rem - net * sp)) with hWdef
  set S := max 0 (min (net * sp) (rem - W)) with hSdef
  have h0rem : (0 : ℚ) ≤ rem := le_max_left _ _
  have hsp0 : (0 : ℚ) ≤ net * sp := mul_nonneg hnet hsp
  have hW0 : (0 : ℚ) ≤ W := le_max_left _ _
  have hS0 : (0 : ℚ) ≤ S := le_max_left _ _
  have hWrem : W ≤ rem := by
    rw [hWdef]
    exact max_le h0rem (le_trans (min_le_right _ _) (by linarith))
  have hSrem : S ≤ rem - W := by
    rw [hSdef]
    exact max_le (by linarith) (min_le_right _ _)
  have hleft : max 0 (rem - W - S) = rem - W - S := max_eq_right (by linarith)
  rw [hleft]
  have hN0 : (0 : ℚ) ≤ f + max 0 (net * np - f) := by
    have := le_max_left (0 : ℚ) (net * np - f); linarith
  have e1 := round2_sub_le (f + max 0 (net * np - f))
  have e2 := round2_sub_le W
  have e3 := round2_sub_le S
  have e4 := round2_sub_le (rem - W - S)
  rw [abs_le] at e1 e2 e3 e4
  refine ⟨round2_nonneg hN0, round2_nonneg hW0, round2_nonneg hS0,
    round2_nonneg (by linarith), ?_⟩
  rw [abs_le]
  constructor <;> linarith [hrem']

/-- Claim C2, witness: the amended statement at netIncome = 100, budget
50/30/20, fixed needs 60. -/
theorem C2_witness :
    0 ≤ (apply_budget 100 (1/2) (3/10) (1/5) 60).1 ∧
    0 ≤ (apply_budget 100 (1/2) (3/10) (1/5) 60).2.1 ∧
    0 ≤ (apply_budget 100 (1/2) (3/10) (1/5) 60).2.2.1 ∧
    0 ≤ (apply_budget 100 (1/2) (3/10) (1/5) 60).2.2.2 ∧
    |(apply_budget 100 (1/2) (3/10) (1/5) 60).1 +
        (apply_budget 100 (1/2) (3/10) (1/5) 60).2.1 +
        (apply_budget 100 (1/2) (3/10) (1/5) 60).2.2.1 +
        (apply_budget 100 (1/2) (3/10) (1/5) 60).2.2.2 -
      (100 + max 0 (100 * (1/2) - 60))| ≤ 1/50 :=
  C2_theorem 100 (1/2) (3/10) (1/5) 60 (by norm_num) (by norm_num) (by norm_num)
    (by norm_num) (by norm_num) (by norm_num)

/-- Claim C3, counterexample: with a debt of 10 and the minimum-payment
choice, the source computes `min_payment = min(25, debt) = 10` on the debt
BEFORE interest, whereas the claim's `min(25, debtAfterInterest)` is
`min(25, 11) = 11`; consequently the new debt is 1, not the 0 the claim's
model would give. -/
theorem C3_counterexample :
    min_payment_of 10 = 10 ∧
    min 25 (debt_after_interest 10) = 11 ∧
    min_payment_of 10 ≠ min 25 (debt_after_interest 10) ∧
    (close_month stateDebt10 0 500).newState.debt = 1 ∧
    max 0 (debt_after_interest 10 - min 25 (debt_after_interest 10)) = 0 ∧
    (close_month stateDebt10 0 500).newState.debt ≠
      max 0 (debt_after_interest 10 - min 25 (debt_after_interest 10)) := by
  have hdai : debt_after_interest 10 = 11 := by
    unfold debt_after_interest
    rw [Int.ceil_eq_iff] <;> norm_num
  have hdebt : (close_month stateDebt10 0 500).newState.debt = new_debt_of 10 false := rfl
  refine ⟨by norm_num [min_payment_of], by rw [hdai]; omega, ?_, ?_, by rw [hdai]; omega, ?_⟩
  · rw [hdai]; norm_num [min_payment_of]
  · rw [hdebt]; norm_num [new_debt_of, payment_of, min_payment_of, hdai]
  · rw [hdebt, hdai]
    norm_num [new_debt_of, payment_of, min_payment_of, hdai]

/-- Claim C3, amended: in `close_month`'s debt model the minimum payment is
`min(25, debt)` computed on the debt BEFORE interest; the payment is the
full `debtAfterInterest = ceil(debt·1.02)` when the recorded credit-card
choice is "pay in full" and the minimum otherwise; and the new debt is
`max(0, debtAfterInterest − payment)` (hence 0 whenever the player pays in
full and the debt is non-negative). -/
theorem C3_theorem (s : PlayerState) (f : ℚ) :
    (close_month s f 500).newState.debt =
      max 0 (debt_after_interest s.debt - payment_of s.debt (pay_full_choice s.choices)) ∧
    (close_month s f 500).snapshot.debt =
      max 0 (debt_after_interest s.debt - payment_of s.debt (pay_full_choice s.choices)) ∧
    payment_of s.debt true = debt_after_interest s.debt ∧
    payment_of s.debt false = min 25 s.debt ∧
    (0 ≤ s.debt → pay_full_choice s.choices = true →
      (close_month s f 500).newState.debt = 0) := by
  refine ⟨rfl, rfl, rfl, rfl, ?_⟩
  intro _ hpf
  show new_debt_of s.debt (pay_full_choice s.choices) = 0
  unfold new_debt_of payment_of
  rw [hpf]
  simp

/-- Claim C3, witness: the amended statement at a pay-in-full state with
debt 50 (new debt 0) and at the minimum-payment state with debt 10. -/
theorem C3_witness :
    ((close_month statePayFull 0 500).newState.debt =
      max 0 (debt_after_interest statePayFull.debt -
        payment_of statePayFull.debt (pay_full_choice statePayFull.choices))) ∧
    (close_month statePayFull 0 500).newState.debt = 0 :=
  ⟨(C3_theorem statePayFull 0).1,
   (C3_theorem statePayFull 0).2.2.2.2 (by decide) (by decide)⟩

/-- Claim C4, counterexample: at netIncome 100, budget 50/30/20 and fixed
needs 60 the pool after fixed needs is 40; funding wants first capped only
by its planned share and the pool (the claimed order) would give wants = 30
and savings = 10, but `apply_budget` reserves the full planned savings
before wants and yields wants = 20, savings = 20. -/
theorem C4_counterexample :
    (apply_budget 100 (1/2) (3/10) (1/5) 60).2.1 = 20 ∧
    (wants_savings_claimOrder 100 (3/10) (1/5) 60).1 = 30 ∧
    (apply_budget 100 (1/2) (3/10) (1/5) 60).2.1 ≠
      (wants_savings_claimOrder 100 (3/10) (1/5) 60).1 ∧
    (apply_budget 100 (1/2) (3/10) (1/5) 60).2.2.1 = 20 ∧
    (wants_savings_claimOrder 100 (3/10) (1/5) 60).2 = 10 := by
  have hab : apply_budget 100 (1/2) (3/10) (1/5) 60 = (60, 20, 20, 0) := by
    simp only [apply_budget, min_def, max_def]
    norm_num [round2, pyRound]
  have hco : wants_savings_claimOrder 100 (3/10) (1/5) 60 = (30, 10) := by
    simp only [wants_savings_claimOrder, min_def, max_def]
    norm_num
  rw [hab, hco]
  norm_num

/-- Claim C4, amended: after fixed needs are paid, wants is funded first
but capped at its planned share and at the remaining pool MINUS the full
planned savings share (savings' planned share is reserved before wants);
savings is then capped at its planned share and at the pool remaining after
wants.  When the pool is no larger than the planned savings share, wants
receives nothing and the whole pool goes to savings: the ordering protects
savings, not wants. -/
theorem C4_theorem (net np wp sp f : ℚ) (hnet : 0 ≤ net) (hwp : 0 ≤ wp)
    (hsp : 0 ≤ sp) (hfn : f ≤ net) :
    (apply_budget net np wp sp f).2.1 =
      round2 (max 0 (min (net * wp) ((net - f) - net * sp))) ∧
    (apply_budget net np wp sp f).2.2.1 =
      round2 (max 0 (min (net * sp)
        ((net - f) - max 0 (min (net * wp) ((net - f) - net * sp))))) ∧
    ((net - f) ≤ net * sp →
      (apply_budget net np wp sp f).2.1 = 0 ∧
      (apply_budget net np wp sp f).2.2.1 = round2 (net - f)) := by
  have hab : apply_budget net np wp sp f =
      (round2 (f + max 0 (net * np - f)),
       round2 (max 0 (min (net * wp) (max 0 (net - f) - net * sp))),
       round2 (max 0 (min (net * sp)
         (max 0 (net - f) - max 0 (min (net * wp) (max 0 (net - f) - net * sp))))),
       round2 (max 0 (max 0 (net - f) - max 0 (min (net * wp) (max 0 (net - f) - net * sp)) -
         max 0 (min (net * sp)
           (max 0 (net - f) - max 0 (min (net * wp) (max 0 (net - f) - net * sp))))))) := rfl
  have hrem : max 0 (net - f) = net - f := max_eq_right (by linarith)
  rw [hab]
  dsimp only
  rw [hrem]
  refine ⟨rfl, rfl, ?_⟩
  intro hshort
  have hW : max 0 (min (net * wp) ((net - f) - net * sp)) = 0 :=
    max_eq_left (le_trans (min_le_right _ _) (by linarith))
  rw [hW]
  refine ⟨round2_zero, ?_⟩
  rw [sub_zero, min_eq_right hshort, max_eq_right (by linarith)]

/-- Claim C4, witness: the amended statement at netIncome 100, budget
50/30/20, fixed needs 90 — the pool of 10 is at most the planned savings 20,
so wants gets 0 and savings the whole pool. -/
theorem C4_witness :
    ((apply_budget 100 (1/2) (3/10) (1/5) 90).2.1 =
      round2 (max 0 (min (100 * (3/10)) ((100 - 90) - 100 * (1/5))))) ∧
    (apply_budget 100 (1/2) (3/10) (1/5) 90).2.1 = 0 ∧
    (apply_budget 100 (1/2) (3/10) (1/5) 90).2.2.1 = round2 (100 - 90) :=
  ⟨(C4_theorem 100 (1/2) (3/10) (1/5) 90 (by norm_num) (by norm_num) (by norm_num)
      (by norm_num)).1,
   ((C4_theorem 100 (1/2) (3/10) (1/5) 90 (by norm_num) (by norm_num) (by norm_num)
      (by norm_num)).2.2 (by norm_num)).1,
   ((C4_theorem 100 (1/2) (3/10) (1/5) 90 (by norm_num) (by norm_num) (by norm_num)
      (by norm_num)).2.2 (by norm_num)).2⟩

/-- Claim C5, counterexample: loading the empty save document succeeds, but
the missing `cash` and `savings` fields are filled with 0, not the
documented new-game defaults 200 and 100 (`s.get("cash", 0)` /
`s.get("savings", 0)` in the source, unlike the dataclass defaults). -/
theorem C5_counterexample :
    (import_save emptyMQSaveDoc).cash = 0 ∧
    (import_save emptyMQSaveDoc).cash ≠ 200 ∧
    (import_save emptyMQSaveDoc).savings = 0 ∧
    (import_save emptyMQSaveDoc).savings ≠ 100 := by
  refine ⟨by decide, by decide, by decide, by decide⟩

/-- Claim C5, amended: `import_save` tolerates any subset of missing fields
and fills each missing field with its default — month 1, cash 0, savings 0,
debt 0, creditScore 680, hours 20, wage 15, withholding 0.12, budget
0.50/0.30/0.20, empty choices and history.  (The cash/savings defaults are
0/0, not the 200/100 the specification documents.) -/
theorem C5_theorem (d : MQSaveDoc) :
    (d.month = none → (import_save d).month = 1) ∧
    (d.cash = none → (import_save d).cash = 0) ∧
    (d.savings = none → (import_save d).savings = 0) ∧
    (d.debt = none → (import_save d).debt = 0) ∧
    (d.creditScore = none → (import_save d).creditScore = 680) ∧
    (d.hoursPerWeek = none → (import_save d).income.hoursPerWeek = 20) ∧
    (d.wagePerHour = none → (import_save d).income.wagePerHour = 15) ∧
    (d.withholdingRate = none → (import_save d).income.withholdingRate = 12/100) ∧
    (d.budget_needs = none → (import_save d).budget_needs = 1/2) ∧
    (d.budget_wants = none → (import_save d).budget_wants = 3/10) ∧
    (d.budget_savings = none → (import_save d).budget_savings = 1/5) ∧
    (d.choices = none → (import_save d).choices = []) ∧
    (d.history = none → (import_save d).history = []) := by
  refine ⟨?_, ?_, ?_, ?_, ?_, ?_, ?_, ?_, ?_, ?_, ?_, ?_, ?_⟩ <;>
    (intro h; simp [import_save, h])

/-- Claim C5, witness: the amended statement at the empty save document. -/
theorem C5_witness :
    (import_save emptyMQSaveDoc).month = 1 ∧
    (import_save emptyMQSaveDoc).cash = 0 ∧
    (import_save emptyMQSaveDoc).savings = 0 ∧
    (import_save emptyMQSaveDoc).debt = 0 ∧
    (import_save emptyMQSaveDoc).creditScore = 680 ∧
    (import_save emptyMQSaveDoc).income.hoursPerWeek = 20 ∧
    (import_save emptyMQSaveDoc).income.wagePerHour = 15 ∧
    (import_save emptyMQSaveDoc).income.withholdingRate = 12/100 ∧
    (import_save emptyMQSaveDoc).budget_needs = 1/2 ∧
    (import_save emptyMQSaveDoc).budget_wants = 3/10 ∧
    (import_save emptyMQSaveDoc).budget_savings = 1/5 ∧
    (import_save emptyMQSaveDoc).choices = [] ∧
    (import_save emptyMQSaveDoc).history = [] := by
  have h := C5_theorem emptyMQSaveDoc
  exact ⟨h.1 rfl, h.2.1 rfl, h.2.2.1 rfl, h.2.2.2.1 rfl, h.2.2.2.2.1 rfl,
    h.2.2.2.2.2.1 rfl, h.2.2.2.2.2.2.1 rfl, h.2.2.2.2.2.2.2.1 rfl,
    h.2.2.2.2.2.2.2.2.1 rfl, h.2.2.2.2.2.2.2.2.2.1 rfl,
    h.2.2.2.2.2.2.2.2.2.2.1 rfl, h.2.2.2.2.2.2.2.2.2.2.2.1 rfl,
    h.2.2.2.2.2.2.2.2.2.2.2.2 rfl⟩

/-- Claim C6: the save round-trips are the identity — for every valid
`PlayerState`, `import_save (export_save s) = s` (every field is written,
so no default fires), and for every valid `SaveState`,
`SaveState.from_json (SaveState.to_json q) = q`; this includes states with
empty history and empty choice/category maps. -/
theorem C6_theorem :
    (∀ s : PlayerState, import_save (export_save s) = s) ∧
    (∀ q : SaveState, SaveState.from_json (SaveState.to_json q) = q) :=
  ⟨fun _ => rfl, fun _ => rfl⟩

/-- Claim C7, counterexample: `clean_text` is not idempotent.  On the
string `"a" + ZERO-WIDTH-SPACE + COMBINING-ACUTE`, the first pass removes
the zero-width space, leaving `"a" + COMBINING-ACUTE` — the NFKC step ran
before the removal, when the zero-width space still separated the two
characters.  A second pass NFKC-composes the now-adjacent pair into `"á"`,
a different string. -/
theorem C7_counterexample :
    clean_text ['a', '\u200B', combAcute] = ['a', combAcute] ∧
    clean_text (clean_text ['a', '\u200B', combAcute]) = [aAcute] ∧
    clean_text (clean_text ['a', '\u200B', combAcute]) ≠
      clean_text ['a', '\u200B', combAcute] := by
  refine ⟨by decide, by decide, by decide⟩

/-- Claim C7, amended: `clean_text` is idempotent on strings of ASCII
characters (idempotence can only fail when removing a zero-width character
juxtaposes a pair that NFKC then composes, which requires non-ASCII
input); and it strips the zero-width space: `clean_text "a​b" = "ab"`. -/
theorem C7_theorem :
    (∀ l : List Char, (∀ c ∈ l, c.toNat < 128) →
      clean_text (clean_text l) = clean_text l) ∧
    clean_text ['a', '\u200B', 'b'] = ['a', 'b'] := by
  constructor
  · intro l hA
    obtain ⟨hchain, hgood, hhead, hlast, hchars⟩ := clean_text_props l hA
    have h1 : nfkc (clean_text l) = clean_text l := by
      refine nfkc_id _ ?_
      intro c hc hcon
      have := (hchars c hc).1
      rw [hcon] at this
      exact absurd this (by decide)
    have h2 : removeZW (clean_text l) = clean_text l := by
      refine removeZW_id ?_
      intro c hc
      have := (hchars c hc).1
      unfold isZW
      rw [decide_eq_false_iff_not]
      omega
    have h3 : ctrlToSpace (clean_text l) = clean_text l :=
      ctrlToSpace_id (fun c hc => (hchars c hc).2)
    have h4 : collapseWS (clean_text l) = clean_text l := by
      refine collapse_id _ hgood (hchain.imp ?_)
      intro a b hR hcon
      exact (hR.1 hcon.1).1 hcon.2
    show stripWS (swapSub (periodSub (commaSub (collapseWS (ctrlToSpace
      (removeZW (nfkc (clean_text l)))))))) = clean_text l
    rw [h1, h2, h3, h4,
      G_eq (clean_text l).length (clean_text l) le_rfl hchain hgood]
    by_cases hc : (clean_text l).getLast? = some ','
    · rw [if_pos hc]
      refine stripWS_append_space ?_ hhead hlast
      intro hcon
      rw [hcon] at hc
      simp at hc
    · rw [if_neg hc, List.append_nil]
      exact stripWS_id hhead hlast
  · decide

/-- Claim C7, witness: idempotence applied to a concrete ASCII string with
spaces, commas and a period. -/
theorem C7_witness :
    (∀ c ∈ ['a', ' ', ' ', ',', 'b', ' ', '.', '.', ',', ' ', 'c'], c.toNat < 128) ∧
    clean_text (clean_text ['a', ' ', ' ', ',', 'b', ' ', '.', '.', ',', ' ', 'c']) =
      clean_text ['a', ' ', ' ', ',', 'b', ' ', '.', '.', ',', ' ', 'c'] :=
  ⟨by decide, C7_theorem.1 ['a', ' ', ' ', ',', 'b', ' ', '.', '.', ',', ' ', 'c'] (by decide)⟩

/-- Claim C8: when progress reaches 1.0 with the session still open, the
session completes early: the bonus added is `6·(N − answered)` — a formula
that does not inspect the recorded results at all (no correctness check) —
and once `finished_by_progress` is set, the recording step adds no
perfect-day bonus and awards no `perfect_day` badge, no matter how many of
the recorded results are correct. -/
theorem C8_theorem :
    (∀ p : PlaySession, p.completed = false → 1 ≤ p.progress_visual →
      p.answered_count ≤ p.numQuestions →
      (finishByProgress p).completed = true ∧
      (finishByProgress p).finished_by_progress = true ∧
      (finishByProgress p).score_today =
        p.score_today + 6 * ((p.numQuestions : ℤ) - (p.answered_count : ℤ)) ∧
      (finishByProgress p).results = p.results) ∧
    (∀ p : PlaySession, p.finished_by_progress = true →
      recordedScore p = p.score_today ∧ perfectBadgeAwarded p = false) := by
  constructor
  · intro p hc hp hle
    have hcond : ¬ p.completed = true ∧ 1 ≤ p.progress_visual := ⟨by rw [hc]; simp, hp⟩
    unfold finishByProgress
    rw [if_pos hcond]
    refine ⟨rfl, rfl, ?_, rfl⟩
    show p.score_today + ((p.numQuestions - p.answered_count : ℕ) : ℤ) * PROGRESS_FINISH_PER_Q =
      p.score_today + 6 * ((p.numQuestions : ℤ) - (p.answered_count : ℤ))
    rw [Nat.cast_sub hle]
    simp only [PROGRESS_FINISH_PER_Q]
    ring
  · intro p hf
    constructor
    · unfold recordedScore
      rw [hf]; simp
    · unfold perfectBadgeAwarded
      rw [hf]; simp

/-- Claim C8, witness: the theorem at a concrete open session with 5
questions and 3 answers (bonus 12), and at the corresponding finished
session. -/
theorem C8_witness :
    ((finishByProgress sessionC8).completed = true ∧
     (finishByProgress sessionC8).finished_by_progress = true ∧
     (finishByProgress sessionC8).score_today =
       sessionC8.score_today +
         6 * ((sessionC8.numQuestions : ℤ) - (sessionC8.answered_count : ℤ)) ∧
     (finishByProgress sessionC8).results = sessionC8.results) ∧
    (recordedScore sessionC8done = sessionC8done.score_today ∧
     perfectBadgeAwarded sessionC8done = false) :=
  ⟨C8_theorem.1 sessionC8 (by decide) (by decide) (by decide),
   C8_theorem.2 sessionC8done (by decide)⟩

/-- Claim C9: `update_streak_with_freeze` — with no prior play date the
streak becomes 1; with a prior date, a day-delta of 0 changes nothing, a
delta of 1 increments the streak (freezes untouched), a delta greater than
1 with a freeze remaining consumes exactly one freeze and still increments
the streak, and a delta greater than 1 with zero freezes resets the streak
to 1. -/
theorem C9_theorem :
    (∀ (s : SaveState) (p : ℤ), s.last_played = none →
      (update_streak_with_freeze s p).streak = 1) ∧
    (∀ (s : SaveState) (p last : ℤ), s.last_played = some last → p - last = 0 →
      update_streak_with_freeze s p = s) ∧
    (∀ (s : SaveState) (p last : ℤ), s.last_played = some last → p - last = 1 →
      (update_streak_with_freeze s p).streak = s.streak + 1 ∧
      (update_streak_with_freeze s p).streak_freezes = s.streak_freezes) ∧
    (∀ (s : SaveState) (p last : ℤ), s.last_played = some last → 1 < p - last →
      0 < s.streak_freezes →
      (update_streak_with_freeze s p).streak = s.streak + 1 ∧
      (update_streak_with_freeze s p).streak_freezes = s.streak_freezes - 1) ∧
    (∀ (s : SaveState) (p last : ℤ), s.last_played = some last → 1 < p - last →
      s.streak_freezes = 0 →
      (update_streak_with_freeze s p).streak = 1 ∧
      (update_streak_with_freeze s p).streak_freezes = s.streak_freezes) := by
  refine ⟨?_, ?_, ?_, ?_, ?_⟩
  · intro s p h
    unfold update_streak_with_freeze
    rw [h]
  · intro s p last h h0
    unfold update_streak_with_freeze
    rw [h]
    simp only [if_pos h0]
  · intro s p last h h1
    unfold update_streak_with_freeze
    rw [h]
    simp only [if_neg (show ¬ p - last = 0 by omega), if_pos h1]
    constructor <;> trivial
  · intro s p last h h1 hfz
    unfold update_streak_with_freeze
    rw [h]
    simp only [if_neg (show ¬ p - last = 0 by omega),
      if_neg (show ¬ p - last = 1 by omega), if_pos h1, if_pos hfz]
    constructor <;> trivial
  · intro s p last h h1 hfz
    unfold update_streak_with_freeze
    rw [h]
    simp only [if_neg (show ¬ p - last = 0 by omega),
      if_neg (show ¬ p - last = 1 by omega), if_pos h1,
      if_neg (show ¬ 0 < s.streak_freezes by omega)]
    constructor <;> trivial

/-- Claim C9, witness: the five cases of the theorem at concrete saves —
same-day replay, a 1-day step, a 2-day gap with 3 freezes, and a 2-day gap
with no freezes. -/
theorem C9_witness :
    (update_streak_with_freeze { streak := 4 } 7).streak = 1 ∧
    update_streak_with_freeze
      { streak := 4, last_played := some 7, streak_freezes := 3 } 7 =
      { streak := 4, last_played := some 7, streak_freezes := 3 } ∧
    ((update_streak_with_freeze
        { streak := 4, last_played := some 7, streak_freezes := 3 } 8).streak = 4 + 1 ∧
     (update_streak_with_freeze
        { streak := 4, last_played := some 7, streak_freezes := 3 } 8).streak_freezes = 3) ∧
    ((update_streak_with_freeze
        { streak := 4, last_played := some 7, streak_freezes := 3 } 9).streak = 4 + 1 ∧
     (update_streak_with_freeze
        { streak := 4, last_played := some 7, streak_freezes := 3 } 9).streak_freezes = 3 - 1) ∧
    ((update_streak_with_freeze
        { streak := 4, last_played := some 7, streak_freezes := 0 } 9).streak = 1 ∧
     (update_streak_with_freeze
        { streak := 4, last_played := some 7, streak_freezes := 0 } 9).streak_freezes = 0) :=
  ⟨C9_theorem.1 { streak := 4 } 7 rfl,
   C9_theorem.2.1 { streak := 4, last_played := some 7, streak_freezes := 3 } 7 7 rfl
     (by decide),
   C9_theorem.2.2.1 { streak := 4, last_played := some 7, streak_freezes := 3 } 8 7 rfl
     (by decide),
   C9_theorem.2.2.2.1 { streak := 4, last_played := some 7, streak_freezes := 3 } 9 7 rfl
     (by decide) (by decide),
   C9_theorem.2.2.2.2 { streak := 4, last_played := some 7, streak_freezes := 0 } 9 7 rfl
     (by decide) (by decide)⟩

/-- Claim C10: for every player state with debt ≥ 0 the payment computed in
`close_month` is at least the minimum payment, so the boolean
`payment >= min_payment` passed to `update_credit_score` is always `true`
and the −25 late-payment branch is unreachable from `close_month`: the new
credit score always equals `update_credit_score` applied with
`on_time_payment = true`. -/
theorem C10_theorem (s : PlayerState) (h : 0 ≤ s.debt) :
    min_payment_of s.debt ≤ payment_of s.debt (pay_full_choice s.choices) ∧
    decide (min_payment_of s.debt ≤ payment_of s.debt (pay_full_choice s.choices)) = true ∧
    ∀ f : ℚ, (close_month s f 500).newState.creditScore =
      update_credit_score s.creditScore
        ((new_debt_of s.debt (pay_full_choice s.choices) : ℚ) / 500) true := by
  have hd0 : (0 : ℚ) ≤ (s.debt : ℚ) := by exact_mod_cast h
  have hkey : min_payment_of s.debt ≤ payment_of s.debt (pay_full_choice s.choices) := by
    unfold payment_of
    cases hpf : pay_full_choice s.choices
    · simp
    · simp only [if_pos rfl]
      calc min_payment_of s.debt ≤ s.debt := min_le_right _ _
        _ = ⌈((s.debt : ℚ))⌉ := (Int.ceil_intCast s.debt).symm
        _ ≤ debt_after_interest s.debt := by
            unfold debt_after_interest
            exact Int.ceil_le_ceil (by linarith)
  refine ⟨hkey, decide_eq_true hkey, ?_⟩
  intro f
  show update_credit_score s.creditScore
      (if (500 : ℤ) = 0 then 0 else (new_debt_of s.debt (pay_full_choice s.choices) : ℚ) / 500)
      (decide (min_payment_of s.debt ≤ payment_of s.debt (pay_full_choice s.choices))) =
    update_credit_score s.creditScore
      ((new_debt_of s.debt (pay_full_choice s.choices) : ℚ) / 500) true
  rw [decide_eq_true hkey, if_neg (by norm_num)]

/-- Claim C10, witness: the theorem at the pay-in-full state with debt 50
and (separately evaluating the boolean) at the minimum-payment state with
debt 10. -/
theorem C10_witness :
    (min_payment_of statePayFull.debt ≤
      payment_of statePayFull.debt (pay_full_choice statePayFull.choices)) ∧
    decide (min_payment_of statePayFull.debt ≤
      payment_of statePayFull.debt (pay_full_choice statePayFull.choices)) = true ∧
    (close_month statePayFull 0 500).newState.creditScore =
      update_credit_score statePayFull.creditScore
        ((new_debt_of statePayFull.debt (pay_full_choice statePayFull.choices) : ℚ) / 500)
        true := by
  have h := C10_theorem statePayFull (by decide)
  exact ⟨h.1, h.2.1, h.2.2 0⟩

end YCS
